import Mathlib

/-!
rewrite-spring: key rewriting and property insertion

A shallow embedding of `pkg/recipes/change_property_key.go`,
`pkg/recipes/add_property.go`, `pkg/utils/file_utils.go` and
`pkg/core/types.go`.

Go strings are modelled as lists of Unicode code points (`Str`).  The Go
library functions used by the recipes (`strings.HasPrefix`, `strings.Index`,
`strings.Contains`, `strings.Replace`, `strings.Split`, `strings.SplitN`,
`strings.Join`, `strings.TrimSpace`, `strings.TrimLeft`) work on bytes; on
valid UTF-8 text, which is self-synchronising, they agree with the same
operations on code points, and that is the text the model covers.
-/

namespace RewriteSpring

/-- A Go string, as its list of code points. -/
abbrev Str := List Char

/-! ## The parts of Go's `strings` package the recipes call -/

/-- Go `strings.HasPrefix(s, prefix)`:
`len(s) >= len(prefix) && s[:len(prefix)] == prefix`. -/
def hasPrefix (s p : Str) : Bool :=
  decide (p.length ≤ s.length) && decide (s.take p.length = p)

/-- Go `strings.HasSuffix(s, suffix)`:
`len(s) >= len(suffix) && s[len(s)-len(suffix):] == suffix`. -/
def hasSuffix (s p : Str) : Bool :=
  decide (p.length ≤ s.length) && decide (s.drop (s.length - p.length) = p)

/-- Go `strings.Index(s, substr)`: the position of the first occurrence of
`substr` in `s`, `none` for Go's `-1`. -/
def index : Str → Str → Option Nat
  | [], sub => if hasPrefix [] sub then some 0 else none
  | c :: t, sub =>
    if hasPrefix (c :: t) sub then some 0 else (index t sub).map (· + 1)

/-- Go `strings.Contains(s, substr)`: `Index(s, substr) >= 0`. -/
def contains (s sub : Str) : Bool :=
  (index s sub).isSome

/-- Go `strings.Replace(s, old, new, 1)`: the text up to the first occurrence
of `old`, then `new`, then the text after that occurrence; `s` itself when
`old` does not occur (or `old == new`).  An empty `old` occurs at position 0. -/
def replaceFirst (s old new : Str) : Str :=
  if old = new then s
  else
    match index s old with
    | none => s
    | some j => s.take j ++ new ++ s.drop (j + old.length)

/-- The loop of Go's `genSplit`: cut at the first occurrence of `sep` at most
`cuts` times, the rest of the string being the last piece. -/
def splitLoop (sep : Str) : Nat → Str → List Str
  | 0, s => [s]
  | cuts + 1, s =>
    match index s sep with
    | none => [s]
    | some m => s.take m :: splitLoop sep cuts (s.drop (m + sep.length))

/-- Go `strings.SplitN(s, sep, n)` for `n ≥ 0`: `nil` for `n = 0`; an empty
`sep` explodes `s` into at most `n` pieces; otherwise at most `n - 1` cuts
(Go caps `n` at `len(s) + 1`). -/
def splitN (s sep : Str) (n : Nat) : List Str :=
  if n = 0 then []
  else if sep = [] then
    if s.length ≤ n then s.map (fun c => [c])
    else (s.take (n - 1)).map (fun c => [c]) ++ [s.drop (n - 1)]
  else splitLoop sep (min (n - 1) s.length) s

/-- Go `strings.Split(s, sep)`, that is `SplitN` with `n = -1`: every
occurrence of `sep` is a cut (there are at most `len(s)` of them). -/
def split (s sep : Str) : List Str :=
  if sep = [] then s.map (fun c => [c])
  else splitLoop sep s.length s

/-- Go `strings.Join(elems, sep)`. -/
def join : List Str → Str → Str
  | [], _ => []
  | [a], _ => a
  | a :: b :: rest, sep => a ++ sep ++ join (b :: rest) sep

/-- Go `unicode.IsSpace`: the Latin-1 spaces `\t \n \v \f \r`, space, U+0085,
U+00A0, and beyond Latin-1 the `White_Space` table. -/
def isSpace (c : Char) : Bool :=
  let n := c.toNat
  (9 ≤ n && n ≤ 13) || n = 0x20 || n = 0x85 || n = 0xA0 || n = 0x1680 ||
  (0x2000 ≤ n && n ≤ 0x200A) || n = 0x2028 || n = 0x2029 || n = 0x202F ||
  n = 0x205F || n = 0x3000

/-- Go `strings.TrimSpace(s)`: `s` without its leading and trailing white
space. -/
def trimSpace (s : Str) : Str :=
  List.rdropWhile isSpace (s.dropWhile isSpace)

/-- Go `strings.TrimLeft(s, cutset)`: `s` without its leading code points
that are in `cutset`. -/
def trimLeft (s cutset : Str) : Str :=
  s.dropWhile (fun c => decide (c ∈ cutset))

/-! ## `pkg/core/types.go` -/

/-- The `FileType` enumeration (`Properties = iota`, `YAML`, `Java`). -/
inductive FileType where
  | Properties
  | YAML
  | Java
  deriving DecidableEq, Repr

/-- The `SpringConfigFile` struct, the one implementation of `SourceFile`
(the field `Type` is written `Type_`, `Type` being a Lean keyword). -/
structure SpringConfigFile where
  Path : Str
  Content : Str
  Type_ : FileType
  deriving DecidableEq

namespace SpringConfigFile

/-- The method `GetPath`. -/
def GetPath (f : SpringConfigFile) : Str := f.Path

/-- The method `GetContent`. -/
def GetContent (f : SpringConfigFile) : Str := f.Content

/-- The method `SetContent`: only the `Content` field is assigned. -/
def SetContent (f : SpringConfigFile) (content : Str) : SpringConfigFile :=
  { f with Content := content }

/-- The method `GetType`. -/
def GetType (f : SpringConfigFile) : FileType := f.Type_

end SpringConfigFile

/-- The `BaseRecipe` struct. -/
structure BaseRecipe where
  DisplayName : String
  Description : String

/-! ## Go's `regexp` package, for the two patterns of the program

The program builds two kinds of patterns: the output of `globToRegex` and the
literal `@Value` pattern of `applyToJava`.  Both lie in the fragment below: a
sequence of one-character matchers, each with an optional greedy `?`, `*` or
`+`, capture groups that are not nested and not repeated, `^` at the start
and `$` at the end.  `compile` gives `none` on anything else.  Matching is
leftmost-first (Go's non-POSIX semantics): the first start position that
matches, and there the first match a backtracking search finds, greedy
repetitions trying the longest run first. -/

/-- A one-character matcher. -/
inductive Atom where
  /-- A literal character, plain or escaped with a backslash. -/
  | lit (c : Char)
  /-- The dot: any character but newline (flag `s` is off). -/
  | dot
  /-- A class `[...]`, or `[^...]` when `neg`; a negated class matches newline. -/
  | cls (neg : Bool) (cs : List Char)
  deriving DecidableEq, Repr

/-- The repetition of a matcher: none, `?`, `*`, `+`. -/
inductive Rep where
  | one
  | opt
  | star
  | plus
  deriving DecidableEq, Repr

/-- An element of a compiled pattern. -/
inductive Item where
  | rep (a : Atom) (q : Rep)
  | gopen
  | gclose
  deriving DecidableEq, Repr

/-- A compiled pattern. -/
structure Regexp where
  bol : Bool
  items : List Item
  eol : Bool
  deriving DecidableEq, Repr

/-- Where the pattern reader stands. -/
inductive Mode where
  | normal
  | escaped
  | classOpen
  | classBody (neg : Bool) (cs : List Char)
  deriving DecidableEq, Repr

/-- The state of the pattern reader; `acc` holds the items read, last first. -/
structure PState where
  bol : Bool
  eol : Bool
  acc : List Item
  grp : Bool
  mode : Mode
  deriving DecidableEq, Repr

/-- Apply `?`, `*` or `+` to the item read last, which must be an unrepeated
matcher. -/
def PState.quantify (st : PState) (q : Rep) : Option PState :=
  match st.acc with
  | Item.rep a Rep.one :: rest => some { st with acc := Item.rep a q :: rest }
  | _ => none

/-- Add a matcher to the items read. -/
def PState.push (st : PState) (it : Item) : PState :=
  { st with acc := it :: st.acc, mode := Mode.normal }

/-- Read one character of a pattern. -/
def PState.step (st : PState) (c : Char) : Option PState :=
  match st.mode with
  | Mode.escaped =>
    if c.toNat < 128 && !c.isAlphanum then some (st.push (Item.rep (Atom.lit c) Rep.one))
    else none
  | Mode.classOpen =>
    if c = '^' then some { st with mode := Mode.classBody true [] }
    else if c = ']' || c = '\\' || c = '[' || c = '-' then none
    else some { st with mode := Mode.classBody false [c] }
  | Mode.classBody neg cs =>
    if c = ']' then
      if cs = [] then none
      else some (st.push (Item.rep (Atom.cls neg cs.reverse) Rep.one))
    else if c = '\\' || c = '[' || c = '-' then none
    else some { st with mode := Mode.classBody neg (c :: cs) }
  | Mode.normal =>
    if st.eol then none
    else if c = '\\' then some { st with mode := Mode.escaped }
    else if c = '.' then some (st.push (Item.rep Atom.dot Rep.one))
    else if c = '[' then some { st with mode := Mode.classOpen }
    else if c = '(' then
      if st.grp then none else some { st.push Item.gopen with grp := true }
    else if c = ')' then
      if st.grp then some { st.push Item.gclose with grp := false } else none
    else if c = '?' then st.quantify Rep.opt
    else if c = '*' then st.quantify Rep.star
    else if c = '+' then st.quantify Rep.plus
    else if c = '^' then
      if st.acc = [] && !st.bol && !st.grp then some { st with bol := true } else none
    else if c = '$' then
      if st.grp then none else some { st with eol := true }
    else if c = '|' || c = '{' || c = '}' || c = ']' then none
    else some (st.push (Item.rep (Atom.lit c) Rep.one))

/-- Read the pattern character by character. -/
def readPattern : PState → Str → Option PState
  | st, [] => some st
  | st, c :: rest =>
    match st.step c with
    | none => none
    | some st1 => readPattern st1 rest

/-- Go `regexp.Compile` on the fragment: `none` is an error (or a pattern
outside the fragment). -/
def compile (pattern : Str) : Option Regexp :=
  match readPattern { bol := false, eol := false, acc := [], grp := false,
                      mode := Mode.normal } pattern with
  | none => none
  | some st =>
    if st.mode = Mode.normal && !st.grp then
      some { bol := st.bol, items := st.acc.reverse, eol := st.eol }
    else none

/-- Whether a matcher accepts a character. -/
def Atom.accepts : Atom → Char → Bool
  | Atom.lit c, d => d == c
  | Atom.dot, d => d != '\n'
  | Atom.cls neg cs, d => (cs.contains d) != neg

/-- A greedy run of a matcher followed by the continuation `k`: one more
character first, and only when the rest then fails, stop here.  The result is
the run and what `k` returned. -/
def matchStar (a : Atom) (k : Str → Option (List Str)) : Str → Option (Str × List Str)
  | [] => (k []).map (fun ps => ([], ps))
  | c :: s =>
    if a.accepts c then
      match matchStar a k s with
      | some (p, ps) => some (c :: p, ps)
      | none => (k (c :: s)).map (fun ps => ([], ps))
    else (k (c :: s)).map (fun ps => ([], ps))

/-- Match the items at the start of `s`, in backtracking order; the result is
the text each item consumed (empty for the group marks). -/
def matchItems (eol : Bool) : List Item → Str → Option (List Str)
  | [], s => if eol && !s.isEmpty then none else some []
  | Item.gopen :: rest, s => (matchItems eol rest s).map (fun ps => [] :: ps)
  | Item.gclose :: rest, s => (matchItems eol rest s).map (fun ps => [] :: ps)
  | Item.rep a Rep.one :: rest, s =>
    match s with
    | [] => none
    | c :: t =>
      if a.accepts c then (matchItems eol rest t).map (fun ps => [c] :: ps) else none
  | Item.rep a Rep.opt :: rest, s =>
    match s with
    | [] => (matchItems eol rest []).map (fun ps => [] :: ps)
    | c :: t =>
      if a.accepts c then
        match matchItems eol rest t with
        | some ps => some ([c] :: ps)
        | none => (matchItems eol rest (c :: t)).map (fun ps => [] :: ps)
      else (matchItems eol rest (c :: t)).map (fun ps => [] :: ps)
  | Item.rep a Rep.star :: rest, s =>
    (matchStar a (matchItems eol rest) s).map (fun r => r.1 :: r.2)
  | Item.rep a Rep.plus :: rest, s =>
    match s with
    | [] => none
    | c :: t =>
      if a.accepts c then
        (matchStar a (matchItems eol rest) t).map (fun r => (c :: r.1) :: r.2)
      else none

/-- A match attempt at one start position; `atStart` says whether it is the
beginning of the text, the only place `^` matches. -/
def matchAt (re : Regexp) (s : Str) (atStart : Bool) : Option (List Str) :=
  if re.bol && !atStart then none else matchItems re.eol re.items s

/-- The leftmost match in `s`, which is the text from position `start` on:
the start position of the match and the text of each item. -/
def searchAt (re : Regexp) : Str → Nat → Option (Nat × List Str)
  | [], start => (matchAt re [] (start == 0)).map (fun ps => (start, ps))
  | c :: t, start =>
    match matchAt re (c :: t) (start == 0) with
    | some ps => some (start, ps)
    | none => searchAt re t (start + 1)

/-- The method `Regexp.MatchString`. -/
def Regexp.MatchString (re : Regexp) (s : Str) : Bool :=
  (searchAt re s 0).isSome

/-- Go `regexp.MatchString(pattern, s)`: `none` is the compile error. -/
def regexpMatchString (pattern s : Str) : Option Bool :=
  (compile pattern).map (fun re => re.MatchString s)

/-- The texts of the capture groups, from the items and what each consumed;
`cur` is the text of the group that is open. -/
def groupTexts : List Item → List Str → Option Str → List Str
  | Item.gopen :: is, _ :: ps, _ => groupTexts is ps (some [])
  | Item.gclose :: is, _ :: ps, cur => cur.getD [] :: groupTexts is ps none
  | Item.rep _ _ :: is, p :: ps, cur => groupTexts is ps (cur.map (fun t => t ++ p))
  | _, _, _ => []

/-- The method `Regexp.FindStringSubmatch`: the leftmost match and its groups,
`none` for `nil`. -/
def Regexp.FindStringSubmatch (re : Regexp) (s : Str) : Option (List Str) :=
  (searchAt re s 0).map (fun r => r.2.flatten :: groupTexts re.items r.2 none)

/-- The loop of `Regexp.replaceAll` behind `ReplaceAllStringFunc`, positions
counted in code points: `last` is `lastMatchEnd`, `pos` is `searchPos`, and
`repl` threads the variables its closure captures.  A match `(a0, a1)` is
replaced unless it is empty and directly follows the previous match; the
search then resumes at `a1`, or one character further when that would not
advance. -/
def replaceLoop {σ : Type} (re : Regexp) (src : Str) (repl : Str → σ → Str × σ) :
    Nat → Nat → Nat → σ → Str × σ
  | 0, last, _, st => (src.drop last, st)
  | fuel + 1, last, pos, st =>
    if pos > src.length then (src.drop last, st)
    else
      match searchAt re (src.drop pos) pos with
      | none => (src.drop last, st)
      | some (a0, ps) =>
        let a1 := a0 + ps.flatten.length
        let before := (src.take a0).drop last
        let out := if a1 > last || a0 = 0 then repl ((src.take a1).drop a0) st else ([], st)
        let pos1 := if pos + 1 > a1 then pos + 1 else a1
        let tail := replaceLoop re src repl fuel a1 pos1 out.2
        (before ++ out.1 ++ tail.1, tail.2)

/-- The method `Regexp.ReplaceAllStringFunc`, with the state of the closure
made explicit. -/
def Regexp.ReplaceAllStringFunc {σ : Type} (re : Regexp) (src : Str)
    (repl : Str → σ → Str × σ) (st : σ) : Str × σ :=
  replaceLoop re src repl (src.length + 1) 0 0 st

/-- Go `regexp.QuoteMeta`: a backslash before each of `\.+*?()|[]{}^$`. -/
def quoteMeta : Str → Str
  | [] => []
  | c :: rest =>
    if c ∈ "\\.+*?()|[]\x7b\x7d^$".toList then '\\' :: c :: quoteMeta rest
    else c :: quoteMeta rest

/-- The loop of Go `strings.Replace(s, old, new, -1)` for a non-empty `old`. -/
def replaceAllLoop (old new : Str) : Nat → Str → Str
  | 0, s => s
  | fuel + 1, s =>
    match index s old with
    | none => s
    | some j => s.take j ++ new ++ replaceAllLoop old new fuel (s.drop (j + old.length))

/-- Go `strings.ReplaceAll(s, old, new)`; an empty `old` matches before every
code point and at the end. -/
def replaceAll (s old new : Str) : Str :=
  if old = new then s
  else if old = [] then new ++ s.flatMap (fun c => c :: new)
  else replaceAllLoop old new s.length s

/-! ## `pkg/utils/file_utils.go` -/

/-- The function `globToRegex`. -/
def globToRegex (glob : Str) : Str :=
  let escaped := quoteMeta glob
  let escaped := replaceAll escaped "\\*".toList ".*".toList
  let escaped := replaceAll escaped "\\?".toList ".".toList
  let escaped := replaceAll escaped "\\.\\*\\.\\*".toList ".*".toList
  "^".toList ++ escaped ++ "$".toList

/-- The function `MatchGlob`: `none` is the error result, with which Go
returns `matched = false`. -/
def MatchGlob (path pattern : Str) : Option Bool :=
  let regexPattern := globToRegex pattern
  regexpMatchString regexPattern path

/-- The loop of Go `filepath.Ext`, over the path read from its end: the text
from the last dot of the last path element on. -/
def extLoop : Str → Str → Str
  | [], _ => []
  | c :: before, acc =>
    if c = '/' then []
    else if c = '.' then '.' :: acc
    else extLoop before (c :: acc)

/-- Go `filepath.Ext(path)` (path separator `/`). -/
def filepathExt (path : Str) : Str :=
  extLoop path.reverse []

/-- Go `filepath.Base(path)`: the last element of the path, trailing slashes
removed; `.` for an empty path, `/` for a path of slashes only. -/
def filepathBase (path : Str) : Str :=
  if path = [] then ".".toList
  else
    let p := List.rdropWhile (fun c => c == '/') path
    if p = [] then "/".toList
    else (p.reverse.takeWhile (fun c => c != '/')).reverse

/-- Go `unicode.ToLower`, as far as the program can tell: `A`-`Z` to `a`-`z`,
and the two code points outside ASCII whose lower case is in ASCII, U+0130
to `i` and U+212A to `k`.  Every other code point outside ASCII has a lower
case outside ASCII, and the program compares the result with ASCII text
only, so such code points are left as they are. -/
def toLowerRune (c : Char) : Char :=
  if 65 ≤ c.toNat && c.toNat ≤ 90 then Char.ofNat (c.toNat + 32)
  else if c.toNat = 0x130 then 'i'
  else if c.toNat = 0x212A then 'k'
  else c

/-- Go `strings.ToLower`. -/
def toLower (s : Str) : Str :=
  s.map toLowerRune

/-- The function `DetermineFileType`. -/
def DetermineFileType (filePath : Str) : FileType :=
  let ext := toLower (filepathExt filePath)
  if ext = ".properties".toList then FileType.Properties
  else if ext = ".yml".toList || ext = ".yaml".toList then FileType.YAML
  else if ext = ".java".toList then FileType.Java
  else
    if contains (filepathBase filePath) "application".toList then FileType.Properties
    else FileType.Properties

/-! ## `pkg/recipes/change_property_key.go`: the key transformer -/

/-- The `ChangeSpringPropertyKeyRecipe` struct. -/
structure ChangeSpringPropertyKeyRecipe where
  base : BaseRecipe
  OldPropertyKey : Str
  NewPropertyKey : Str
  Except : List Str
  PathExpressions : List Str

/-- The loop `for _, except := range r.Except` of `shouldTransformKey`:
`false` as soon as the key contains `OldPropertyKey + "." + except`. -/
def exceptLoop (old key : Str) : List Str → Bool
  | [] => true
  | e :: rest =>
    if contains key (old ++ ".".toList ++ e) then false
    else exceptLoop old key rest

/-- The method `shouldTransformKey`. -/
def shouldTransformKey (r : ChangeSpringPropertyKeyRecipe) (key : Str) : Bool :=
  if !hasPrefix key r.OldPropertyKey then false
  else if r.Except.length > 0 then exceptLoop r.OldPropertyKey key r.Except
  else true

/-- The method `transformPropertyKey`. -/
def transformPropertyKey (r : ChangeSpringPropertyKeyRecipe) (key : Str) : Str :=
  if hasPrefix key r.OldPropertyKey then
    replaceFirst key r.OldPropertyKey r.NewPropertyKey
  else key

/-- A recipe value for the examples: the bare struct, with no path
expressions, its strings given as literals. -/
def keyRecipe (old new : String) (except : List String) : ChangeSpringPropertyKeyRecipe :=
  { base := { DisplayName := "", Description := "" }
    OldPropertyKey := old.toList
    NewPropertyKey := new.toList
    Except := except.map String.toList
    PathExpressions := [] }

/-! ## `pkg/recipes/change_property_key.go`: the properties applier -/

/-- The body of the loop of `applyToProperties` for one element of `lines`:
the new value of `lines[i]` and whether `modified` was set. -/
def propertiesLine (r : ChangeSpringPropertyKeyRecipe) (orig : Str) : Str × Bool :=
  let line := trimSpace orig
  if hasPrefix line "#".toList || line = [] then (orig, false)
  else
    match splitN line "=".toList 2 with
    | [p0, p1] =>
      let key := trimSpace p0
      let _value := trimSpace p1
      if shouldTransformKey r key then
        let newKey := transformPropertyKey r key
        if newKey ≠ key then
          (replaceFirst orig (key ++ "=".toList) (newKey ++ "=".toList), true)
        else (orig, false)
      else (orig, false)
    | _ => (orig, false)

/-- The loop `for i, line := range lines` of `applyToProperties`: every
element is visited once, in order; `modified` is set by any of them. -/
def propertiesLoop (r : ChangeSpringPropertyKeyRecipe) : List Str → List Str × Bool
  | [] => ([], false)
  | l :: rest =>
    let here := propertiesLine r l
    let after := propertiesLoop r rest
    (here.1 :: after.1, here.2 || after.2)

/-- The method `applyToProperties` (its error result is always `nil`). -/
def applyToProperties (r : ChangeSpringPropertyKeyRecipe) (sourceFile : SpringConfigFile) :
    SpringConfigFile :=
  let content := sourceFile.GetContent
  let lines := split content "\n".toList
  let out := propertiesLoop r lines
  if out.2 then sourceFile.SetContent (join out.1 "\n".toList) else sourceFile

/-! ## `pkg/recipes/change_property_key.go`: the YAML applier -/

/-- The Go slice expression `s[0:1]`, which panics (`none`) on an empty `s`.
Go slices bytes: the model keeps the first code point, which compares with
the one-byte string `"#"` the way the first byte does. -/
def sliceFirst (s : Str) : Option Str :=
  match s with
  | [] => none
  | c :: _ => some [c]

/-- The body of the loop of `applyToYAML` for one element of `lines`: the new
value of `lines[i]` and whether `modified` was set; `none` is a run-time
panic of the slice expression.  The guard is written
`strings.Contains(line, ":") && !strings.TrimSpace(line)[0:1] == "#"` in the
source; it is read as `&& !(... == "#")`, the only well-typed reading, and
`&&` evaluates its right operand only when the left one is true. -/
def yamlLine (r : ChangeSpringPropertyKeyRecipe) (line : Str) : Option (Str × Bool) :=
  if contains line ":".toList then
    match sliceFirst (trimSpace line) with
    | none => none
    | some first =>
      if !(first == "#".toList) then
        match splitN line ":".toList 2 with
        | [p0, _] =>
          let keyPart := trimSpace p0
          let _indent := line.length - (trimLeft line " ".toList).length
          if shouldTransformKey r keyPart then
            let newKey := transformPropertyKey r keyPart
            if newKey ≠ keyPart then
              some (replaceFirst line (keyPart ++ ":".toList) (newKey ++ ":".toList), true)
            else some (line, false)
          else some (line, false)
        | _ => some (line, false)
      else some (line, false)
  else some (line, false)

/-- The loop `for i, line := range lines` of `applyToYAML`. -/
def yamlLoop (r : ChangeSpringPropertyKeyRecipe) : List Str → Option (List Str × Bool)
  | [] => some ([], false)
  | l :: rest =>
    match yamlLine r l with
    | none => none
    | some here =>
      match yamlLoop r rest with
      | none => none
      | some after => some (here.1 :: after.1, here.2 || after.2)

/-- The method `applyToYAML` (its error result is always `nil`; `none` is a
panic). -/
def applyToYAML (r : ChangeSpringPropertyKeyRecipe) (sourceFile : SpringConfigFile) :
    Option SpringConfigFile :=
  let content := sourceFile.GetContent
  let lines := split content "\n".toList
  match yamlLoop r lines with
  | none => none
  | some out =>
    if out.2 then some (sourceFile.SetContent (join out.1 "\n".toList)) else some sourceFile

/-! ## `pkg/recipes/change_property_key.go`: the Java applier and `Apply` -/

/-- The pattern of `applyToJava`,
`@Value\("?\$\{([^}:]+)([^}]*)\}"?\)` in the source. -/
def valuePatternText : Str :=
  "@Value\\(\"?\\$\\\x7b([^\x7d:]+)([^\x7d]*)\\\x7d\"?\\)".toList

/-- The closure passed to `ReplaceAllStringFunc` in `applyToJava`; the Boolean
is the captured variable `modified`. -/
def javaReplace (r : ChangeSpringPropertyKeyRecipe) (valuePattern : Regexp)
    (found : Str) (modified : Bool) : Str × Bool :=
  let submatch := (valuePattern.FindStringSubmatch found).getD []
  if submatch.length ≥ 2 then
    let propertyKey := submatch.getD 1 []
    let _remainder := if submatch.length > 2 then submatch.getD 2 [] else []
    if shouldTransformKey r propertyKey then
      let newKey := transformPropertyKey r propertyKey
      if newKey ≠ propertyKey then (replaceFirst found propertyKey newKey, true)
      else (found, modified)
    else (found, modified)
  else (found, modified)

/-- The method `applyToJava` (its error result is always `nil`; `none` is the
panic of `regexp.MustCompile`). -/
def applyToJava (r : ChangeSpringPropertyKeyRecipe) (sourceFile : SpringConfigFile) :
    Option SpringConfigFile :=
  let content := sourceFile.GetContent
  match compile valuePatternText with
  | none => none
  | some valuePattern =>
    let out := valuePattern.ReplaceAllStringFunc content (javaReplace r valuePattern) false
    if out.2 then some (sourceFile.SetContent out.1) else some sourceFile

/-- The constructor `NewChangeSpringPropertyKeyRecipe`. -/
def NewChangeSpringPropertyKeyRecipe (oldKey newKey : Str) (except : List Str) :
    ChangeSpringPropertyKeyRecipe :=
  { base :=
      { DisplayName := "Change the key of a Spring application property"
        Description := "Change Spring application property keys existing in either Properties or YAML files, and in @Value annotations." }
    OldPropertyKey := oldKey
    NewPropertyKey := newKey
    Except := except
    PathExpressions :=
      [ "**/application.properties".toList,
        "**/application.yml".toList,
        "**/application.yaml".toList ] }

/-- The loop of `shouldProcessFile`: `true` at the first pattern that
matches, an error of `MatchGlob` counting as no match. -/
def anyGlob (filePath : Str) : List Str → Bool
  | [] => false
  | pattern :: rest =>
    if (MatchGlob filePath pattern).getD false then true else anyGlob filePath rest

namespace ChangeSpringPropertyKeyRecipe

/-- The method `shouldProcessFile`. -/
def shouldProcessFile (r : ChangeSpringPropertyKeyRecipe) (filePath : Str) : Bool :=
  if r.PathExpressions.length = 0 then true
  else anyGlob filePath r.PathExpressions

/-- The method `Apply` (its error result is always `nil`; `none` is a
panic). -/
def Apply (r : ChangeSpringPropertyKeyRecipe) (sourceFile : SpringConfigFile) :
    Option SpringConfigFile :=
  if !r.shouldProcessFile sourceFile.GetPath then some sourceFile
  else
    match sourceFile.GetType with
    | FileType.Properties => some (applyToProperties r sourceFile)
    | FileType.YAML => applyToYAML r sourceFile
    | FileType.Java => applyToJava r sourceFile

end ChangeSpringPropertyKeyRecipe

/-! ## `pkg/recipes/add_property.go`: the properties insert -/

/-- The `AddSpringPropertyRecipe` struct. -/
structure AddSpringPropertyRecipe where
  base : BaseRecipe
  Property : Str
  Value : Str
  Comment : Str
  PathExpressions : List Str

/-- The loop of `propertyExistsInProperties`: comment and blank lines are
skipped; `true` at the first other line that starts with `property + "="`. -/
def propertyExistsLoop (property : Str) : List Str → Bool
  | [] => false
  | l :: rest =>
    let line := trimSpace l
    if hasPrefix line "#".toList || line = [] then propertyExistsLoop property rest
    else if hasPrefix line (property ++ "=".toList) then true
    else propertyExistsLoop property rest

/-- The method `propertyExistsInProperties`. -/
def propertyExistsInProperties (r : AddSpringPropertyRecipe) (content : Str) : Bool :=
  propertyExistsLoop r.Property (split content "\n".toList)

/-- The method `addToProperties` (its error result is always `nil`); the
`strings.Builder` is the string written so far. -/
def addToProperties (r : AddSpringPropertyRecipe) (sourceFile : SpringConfigFile) :
    SpringConfigFile :=
  let content := sourceFile.GetContent
  if propertyExistsInProperties r content then sourceFile
  else
    let b0 := content
    let b1 := if !hasSuffix content "\n".toList then b0 ++ "\n".toList else b0
    let b2 := if r.Comment ≠ [] then b1 ++ "# ".toList ++ r.Comment ++ "\n".toList else b1
    let b3 := b2 ++ r.Property ++ "=".toList ++ r.Value ++ "\n".toList
    sourceFile.SetContent b3

/-- An add-property recipe value for the examples: the bare struct, with no
path expressions, its strings given as literals. -/
def addRecipe (property value comment : String) : AddSpringPropertyRecipe :=
  { base := { DisplayName := "", Description := "" }
    Property := property.toList
    Value := value.toList
    Comment := comment.toList
    PathExpressions := [] }

/-! ## `pkg/recipes/add_property.go`: the YAML insert -/

/-- The list `specialChars` of `needsQuotes`. -/
def specialChars : List Str :=
  [":", "[", "]", "\x7b", "\x7d", ",", "&", "*", "#", "?", "|", "-", "<", ">", "=", "!",
    "%", "@", "`"].map String.toList

/-- The loop `for _, char := range specialChars` of `needsQuotes`. -/
def specialLoop (value : Str) : List Str → Bool
  | [] => false
  | char :: rest => if contains value char then true else specialLoop value rest

/-- The method `needsQuotes` (its receiver is not used). -/
def needsQuotes (value : Str) : Bool :=
  if specialLoop value specialChars then true
  else if contains value ".".toList && decide ((split value ".".toList).length > 2) then true
  else false

/-- The loop `for i, part := range propertyParts` of `convertToYAML`: `n` is
`len(propertyParts)`, `i` the index and `indent` the indentation reached. -/
def yamlPartsLoop (value : Str) (n : Nat) : Nat → Str → List Str → Str
  | _, _, [] => []
  | i, indent, part :: rest =>
    indent ++ part ++ ":".toList ++
      (if i = n - 1 then
        " ".toList ++
          (if needsQuotes value then "\"".toList ++ value ++ "\"".toList else value)
      else []) ++
      "\n".toList ++ yamlPartsLoop value n (i + 1) (indent ++ "  ".toList) rest

/-- The method `convertToYAML`. -/
def convertToYAML (r : AddSpringPropertyRecipe) : Str :=
  let propertyParts := split r.Property ".".toList
  (if r.Comment ≠ [] then "# ".toList ++ r.Comment ++ "\n".toList else []) ++
    yamlPartsLoop r.Value propertyParts.length 0 [] propertyParts

/-- The loop of `propertyExistsInYAML`. -/
def leafExistsLoop (leafKey : Str) : List Str → Bool
  | [] => false
  | line :: rest =>
    let trimmed := trimSpace line
    if hasPrefix trimmed (leafKey ++ ":".toList) then true else leafExistsLoop leafKey rest

/-- The method `propertyExistsInYAML`; `propertyParts[len(propertyParts)-1]`
is in range, `strings.Split` never returning an empty slice here. -/
def propertyExistsInYAML (r : AddSpringPropertyRecipe) (content : Str) : Bool :=
  let propertyParts := split r.Property ".".toList
  let leafKey := propertyParts.getD (propertyParts.length - 1) []
  let lines := split content "\n".toList
  leafExistsLoop leafKey lines

/-- The method `addToYAML` (its error result is always `nil`). -/
def addToYAML (r : AddSpringPropertyRecipe) (sourceFile : SpringConfigFile) :
    SpringConfigFile :=
  let content := sourceFile.GetContent
  if propertyExistsInYAML r content then sourceFile
  else
    let yamlProperty := convertToYAML r
    let b0 := content
    let b1 := if !hasSuffix content "\n".toList then b0 ++ "\n".toList else b0
    sourceFile.SetContent (b1 ++ yamlProperty)

/-! ## `pkg/recipes/add_property.go`: `Apply` -/

/-- The constructor `NewAddSpringPropertyRecipe`. -/
def NewAddSpringPropertyRecipe (property value comment : Str) (pathExpressions : List Str) :
    AddSpringPropertyRecipe :=
  let defaultPaths :=
    [ "**/application.properties".toList,
      "**/application.yml".toList,
      "**/application.yaml".toList ]
  let pathExpressions := if pathExpressions.length = 0 then defaultPaths else pathExpressions
  { base :=
      { DisplayName := "Add a spring configuration property"
        Description := "Add a spring configuration property to a configuration file if it does not already exist in that file." }
    Property := property
    Value := value
    Comment := comment
    PathExpressions := pathExpressions }

namespace AddSpringPropertyRecipe

/-- The method `shouldProcessFile`. -/
def shouldProcessFile (r : AddSpringPropertyRecipe) (filePath : Str) : Bool :=
  anyGlob filePath r.PathExpressions

/-- The method `Apply` (its error result is always `nil`). -/
def Apply (r : AddSpringPropertyRecipe) (sourceFile : SpringConfigFile) : SpringConfigFile :=
  if !r.shouldProcessFile sourceFile.GetPath then sourceFile
  else
    match sourceFile.GetType with
    | FileType.Properties => addToProperties r sourceFile
    | FileType.YAML => addToYAML r sourceFile
    | _ => sourceFile

end AddSpringPropertyRecipe

/-! ## `pkg/utils/file_utils.go`: the file walker, and `main`'s patterns -/

/-- A file or directory `filepath.Walk` visits: the path it passes to the
callback and `info.IsDir()`. -/
structure WalkEntry where
  path : Str
  isDir : Bool

/-- The function `FindSpringConfigFiles`, the entries `filepath.Walk` visits
under `rootDir` being given (the walk itself and its error are outside the
model): directories are skipped, a file is kept when one of the patterns
matches its path. -/
def FindSpringConfigFiles (walked : List WalkEntry) (patterns : List Str) : List Str :=
  match walked with
  | [] => []
  | e :: rest =>
    if e.isDir then FindSpringConfigFiles rest patterns
    else if anyGlob e.path patterns then e.path :: FindSpringConfigFiles rest patterns
    else FindSpringConfigFiles rest patterns

/-- The list `defaultPatterns` of `main`. -/
def defaultPatterns : List Str :=
  [ "**/application.properties".toList,
    "**/application.yml".toList,
    "**/application.yaml".toList,
    "**/*.java".toList ]

/-! ## The extension of a path, in the words of the specification -/

/-- The final element of a path: the text after its last `/`. -/
def finalElement (path : Str) : Str :=
  (path.reverse.takeWhile (fun c => c != '/')).reverse

/-- The extension of the final element of a path: the text from its last dot
on, empty when it has no dot. -/
def extensionOf (path : Str) : Str :=
  if '.' ∈ finalElement path then
    '.' :: ((finalElement path).reverse.takeWhile (fun c => c != '.')).reverse
  else []

/-! ## Go strings as bytes: `MatchGlob` on text that need not be UTF-8

A Go string is a sequence of bytes.  `Str` holds the strings that are valid
UTF-8; the definitions below give `MatchGlob` on arbitrary bytes, so that a
pattern that is not valid UTF-8 can be stated. -/

/-- A Go string as its bytes (each below 256). -/
abbrev Bytes := List Nat

/-- A UTF-8 continuation byte, `0x80` to `0xBF`. -/
def isCont (b : Nat) : Bool := decide (0x80 ≤ b) && decide (b ≤ 0xBF)

/-- Go `utf8.EncodeRune` for a valid code point. -/
def encodeRune (c : Char) : Bytes :=
  let n := c.toNat
  if n < 0x80 then [n]
  else if n < 0x800 then [0xC0 + n / 64, 0x80 + n % 64]
  else if n < 0x10000 then [0xE0 + n / 4096, 0x80 + n / 64 % 64, 0x80 + n % 64]
  else [0xF0 + n / 262144, 0x80 + n / 4096 % 64, 0x80 + n / 64 % 64, 0x80 + n % 64]

/-- The bytes of a text. -/
def encodeUTF8 (s : Str) : Bytes := s.flatMap encodeRune

/-- The code point of a two-byte sequence. -/
def rune2 (b0 b1 : Nat) : Nat := (b0 - 0xC0) * 64 + (b1 - 0x80)

/-- The code point of a three-byte sequence. -/
def rune3 (b0 b1 b2 : Nat) : Nat := (b0 - 0xE0) * 4096 + (b1 - 0x80) * 64 + (b2 - 0x80)

/-- The code point of a four-byte sequence. -/
def rune4 (b0 b1 b2 b3 : Nat) : Nat :=
  (b0 - 0xF0) * 262144 + (b1 - 0x80) * 4096 + (b2 - 0x80) * 64 + (b3 - 0x80)

/-- A well-formed two-byte sequence (lead `0xC2` to `0xDF`). -/
def valid2 (b0 b1 : Nat) : Bool := decide (0xC2 ≤ b0) && decide (b0 ≤ 0xDF) && isCont b1

/-- A well-formed three-byte sequence: not overlong, not a surrogate. -/
def valid3 (b0 b1 b2 : Nat) : Bool :=
  decide (0xE0 ≤ b0) && decide (b0 ≤ 0xEF) && isCont b1 && isCont b2 &&
    decide (0x800 ≤ rune3 b0 b1 b2) &&
    !(decide (0xD800 ≤ rune3 b0 b1 b2) && decide (rune3 b0 b1 b2 ≤ 0xDFFF))

/-- A well-formed four-byte sequence: not overlong, at most U+10FFFF. -/
def valid4 (b0 b1 b2 b3 : Nat) : Bool :=
  decide (0xF0 ≤ b0) && decide (b0 ≤ 0xF4) && isCont b1 && isCont b2 && isCont b3 &&
    decide (0x10000 ≤ rune4 b0 b1 b2 b3) && decide (rune4 b0 b1 b2 b3 ≤ 0x10FFFF)

/-- Go `utf8.DecodeRune`: the code point at the start of the bytes and its
width; `none` stands for `(RuneError, 1)`, the result on an invalid byte. -/
def decodeRune : Bytes → Option (Char × Nat)
  | [] => none
  | b0 :: rest =>
    if b0 < 0x80 then some (Char.ofNat b0, 1)
    else
      match rest with
      | [] => none
      | b1 :: r1 =>
        if valid2 b0 b1 then some (Char.ofNat (rune2 b0 b1), 2)
        else
          match r1 with
          | [] => none
          | b2 :: r2 =>
            if valid3 b0 b1 b2 then some (Char.ofNat (rune3 b0 b1 b2), 3)
            else
              match r2 with
              | [] => none
              | b3 :: _ =>
                if valid4 b0 b1 b2 b3 then some (Char.ofNat (rune4 b0 b1 b2 b3), 4)
                else none

/-- Decoding a Go string rune by rune: `skip` bytes of the rune just decoded
are still to be passed over; an invalid byte gives `none` and is one byte
wide. -/
def decodeLoop : Nat → Bytes → List (Option Char)
  | _, [] => []
  | skip + 1, _ :: rest => decodeLoop skip rest
  | 0, b0 :: rest =>
    match decodeRune (b0 :: rest) with
    | some (c, size) => some c :: decodeLoop (size - 1) rest
    | none => none :: decodeLoop 0 rest

/-- The runes of a Go string, `none` for each invalid byte. -/
def decodeRunes (s : Bytes) : List (Option Char) := decodeLoop 0 s

/-- The text of a Go string that is valid UTF-8, `none` when it is not. -/
def validText : List (Option Char) → Option Str
  | [] => some []
  | none :: _ => none
  | some c :: rest => (validText rest).map (fun t => c :: t)

/-- The runes the `regexp` matcher reads from the string it matches: each
byte of an invalid UTF-8 sequence as U+FFFD (package documentation of
`regexp`). -/
def lossyText (rs : List (Option Char)) : Str :=
  rs.map (fun o => o.getD (Char.ofNat 0xFFFD))

/-- The function `MatchGlob` on Go strings given as bytes.  `QuoteMeta` and
`ReplaceAll` touch ASCII bytes only, so the pattern handed to
`regexp.MatchString` is valid UTF-8 exactly when the glob is, and
`regexp.Compile` returns an error on a pattern that is not valid UTF-8:
`none`, with which Go returns `matched = false`.  On a valid pattern the
result is that of `MatchGlob` on the text of the pattern and the runes of
the path. -/
def MatchGlobBytes (path pattern : Bytes) : Option Bool :=
  match validText (decodeRunes pattern) with
  | none => none
  | some pat => MatchGlob (lossyText (decodeRunes path)) pat

/-! ## What a compiled pattern accepts -/

/-- The texts a list of items matches from their first character on, `eol`
asking the match to reach the end of the text: the declarative reading of
`matchItems`. -/
def Accepts (eol : Bool) : List Item → Str → Prop
  | [], s => eol = true → s = []
  | Item.gopen :: rest, s => Accepts eol rest s
  | Item.gclose :: rest, s => Accepts eol rest s
  | Item.rep a Rep.one :: rest, s =>
    ∃ c t, s = c :: t ∧ a.accepts c = true ∧ Accepts eol rest t
  | Item.rep a Rep.opt :: rest, s =>
    (∃ c t, s = c :: t ∧ a.accepts c = true ∧ Accepts eol rest t) ∨ Accepts eol rest s
  | Item.rep a Rep.star :: rest, s =>
    ∃ u v, s = u ++ v ∧ (∀ c ∈ u, a.accepts c = true) ∧ Accepts eol rest v
  | Item.rep a Rep.plus :: rest, s =>
    ∃ c u v, s = c :: (u ++ v) ∧ a.accepts c = true ∧ (∀ d ∈ u, a.accepts d = true) ∧
      Accepts eol rest v

/-- The characters `regexp.QuoteMeta` escapes. -/
def metaChars : List Char := "\\.+*?()|[]\x7b\x7d^$".toList

/-- The text `regexp.QuoteMeta` produces for one character. -/
def quoteToken (c : Char) : Str :=
  if c ∈ metaChars then ['\\', c] else [c]

/-- The text for one character of the glob after the first `ReplaceAll` of
`globToRegex`. -/
def starToken (c : Char) : Str :=
  if c = '*' then ".*".toList else quoteToken c

/-- The text `globToRegex` produces for one character of the glob: `.*` for
`*`, `.` for `?`, a backslash and the character for the other characters
`QuoteMeta` escapes, the character itself otherwise. -/
def globToken (c : Char) : Str :=
  if c = '*' then ".*".toList
  else if c = '?' then ".".toList
  else if c ∈ metaChars then ['\\', c]
  else [c]

/-- The item that text compiles to. -/
def globItem (c : Char) : Item :=
  if c = '*' then Item.rep Atom.dot Rep.star
  else if c = '?' then Item.rep Atom.dot Rep.one
  else Item.rep (Atom.lit c) Rep.one

/-- A piece of text that `strings.ReplaceAll` with the two-character `old`
text `[a, b]` either replaces whole or cannot overlap: it is `[a, b]`, or one
character other than `a` and `b`, or two characters that do not start with
`b` and are not `[a, b]`. -/
def TokOK (a b : Char) (t : Str) : Prop :=
  t = [a, b] ∨ (∃ c, t = [c] ∧ c ≠ a ∧ c ≠ b) ∨
    (∃ c d, t = [c, d] ∧ c ≠ b ∧ (c ≠ a ∨ d ≠ b))

/-! ## Facts about the string functions -/

theorem hasPrefix_iff (s p : Str) : hasPrefix s p = true ↔ p <+: s := by
  unfold hasPrefix
  rw [Bool.and_eq_true, decide_eq_true_eq, decide_eq_true_eq]
  constructor
  · rintro ⟨_, h⟩
    exact h ▸ List.take_prefix _ _
  · rintro ⟨t, rfl⟩
    simp

theorem hasPrefix_append (p t : Str) : hasPrefix (p ++ t) p = true :=
  (hasPrefix_iff _ _).2 (List.prefix_append p t)

theorem index_of_hasPrefix {s sub : Str} (h : hasPrefix s sub = true) :
    index s sub = some 0 := by
  cases s <;> simp [index, h]

/-- What `index` returns is an occurrence: `s` is the text before it, `sub`,
and the text after it. -/
theorem index_some_split : ∀ (s sub : Str) (j : Nat), index s sub = some j →
    s = s.take j ++ sub ++ s.drop (j + sub.length)
  | [], sub, j, h => by
    unfold index at h
    split at h
    · rename_i hp
      obtain ⟨t, ht⟩ := (hasPrefix_iff _ _).1 hp
      have : sub = [] := (List.append_eq_nil.1 ht).1
      simp [this]
    · exact absurd h (by simp)
  | c :: t, sub, j, h => by
    unfold index at h
    split at h
    · rename_i hp
      obtain ⟨u, hu⟩ := (hasPrefix_iff _ _).1 hp
      have hj : j = 0 := by simpa using h.symm
      subst hj
      simp only [List.take_zero, List.nil_append, Nat.zero_add]
      rw [← hu]
      simp
    · cases hi : index t sub with
      | none => simp [hi] at h
      | some i =>
        have hj : j = i + 1 := by simpa [hi] using h.symm
        subst hj
        have ih := index_some_split t sub i hi
        have e : i + 1 + sub.length = (i + sub.length) + 1 := by omega
        rw [e, List.take_succ_cons, List.drop_succ_cons]
        simpa using ih

theorem not_infix_of_index_none : ∀ (s sub : Str), index s sub = none → ¬ sub <:+: s
  | [], sub, h => by
    unfold index at h
    split at h
    · exact absurd h (by simp)
    · rename_i hp
      intro hi
      apply hp
      have : sub = [] := List.eq_nil_of_infix_nil hi
      subst this
      rfl
  | c :: t, sub, h => by
    unfold index at h
    split at h
    · exact absurd h (by simp)
    · rename_i hp
      have ht : index t sub = none := by
        cases hi : index t sub with
        | none => rfl
        | some i => simp [hi] at h
      intro hi
      rcases List.infix_cons_iff.1 hi with h1 | h2
      · exact hp ((hasPrefix_iff _ _).2 h1)
      · exact not_infix_of_index_none t sub ht h2

theorem contains_iff (s sub : Str) : contains s sub = true ↔ sub <:+: s := by
  unfold contains
  constructor
  · intro h
    cases hi : index s sub with
    | none => simp [hi] at h
    | some j =>
      have := index_some_split s sub j hi
      exact ⟨s.take j, s.drop (j + sub.length), this.symm⟩
  · intro h
    cases hi : index s sub with
    | none => exact absurd h (not_infix_of_index_none s sub hi)
    | some j => rfl

theorem exceptLoop_iff (old key : Str) (es : List Str) :
    exceptLoop old key es = true ↔
      ¬ ∃ e ∈ es, (old ++ ".".toList ++ e) <:+: key := by
  induction es with
  | nil => simp [exceptLoop]
  | cons e rest ih =>
    unfold exceptLoop
    by_cases hc : contains key (old ++ ".".toList ++ e) = true
    · simp only [hc, if_true]
      have := (contains_iff _ _).1 hc
      simp only [Bool.false_eq_true, false_iff, not_not]
      exact ⟨e, List.mem_cons_self _ _, this⟩
    · have hn : ¬ (old ++ ".".toList ++ e) <:+: key := fun h => hc ((contains_iff _ _).2 h)
      simp only [hc, if_false, ih, Bool.false_eq_true]
      constructor
      · rintro h ⟨x, hx, hxi⟩
        rcases List.mem_cons.1 hx with rfl | hx
        · exact hn hxi
        · exact h ⟨x, hx, hxi⟩
      · rintro h ⟨x, hx, hxi⟩
        exact h ⟨x, List.mem_cons_of_mem _ hx, hxi⟩

theorem replaceFirst_at_start (old new rest : Str) :
    replaceFirst (old ++ rest) old new = new ++ rest := by
  unfold replaceFirst
  by_cases h : old = new
  · simp [h]
  · rw [if_neg h, index_of_hasPrefix (hasPrefix_append old rest)]
    simp

theorem index_single_of_not_mem (c : Char) : ∀ (s : Str), c ∉ s → index s [c] = none
  | [], _ => by simp [index, hasPrefix]
  | d :: t, h => by
    have hd : c ≠ d := fun e => h (e ▸ List.mem_cons_self _ _)
    have ht : c ∉ t := fun m => h (List.mem_cons_of_mem _ m)
    have hp : hasPrefix (d :: t) [c] = false := by
      cases hh : hasPrefix (d :: t) [c] with
      | false => rfl
      | true =>
        obtain ⟨u, hu⟩ := (hasPrefix_iff _ _).1 hh
        simp only [List.singleton_append, List.cons.injEq] at hu
        exact absurd hu.1 hd
    unfold index
    rw [hp, index_single_of_not_mem c t ht]
    rfl

theorem index_single_at (c : Char) (rest : Str) : ∀ (pre : Str), c ∉ pre →
    index (pre ++ c :: rest) [c] = some pre.length
  | [], _ => index_of_hasPrefix (hasPrefix_append [c] rest)
  | d :: t, h => by
    have hd : c ≠ d := fun e => h (e ▸ List.mem_cons_self _ _)
    have ht : c ∉ t := fun m => h (List.mem_cons_of_mem _ m)
    have hp : hasPrefix (d :: (t ++ c :: rest)) [c] = false := by
      cases hh : hasPrefix (d :: (t ++ c :: rest)) [c] with
      | false => rfl
      | true =>
        obtain ⟨u, hu⟩ := (hasPrefix_iff _ _).1 hh
        simp only [List.singleton_append, List.cons.injEq] at hu
        exact absurd hu.1 hd
    show index (d :: (t ++ c :: rest)) [c] = _
    unfold index
    rw [hp, index_single_at c rest t ht]
    rfl

theorem splitLoop_of_index_none (sep s : Str) (h : index s sep = none) (n : Nat) :
    splitLoop sep n s = [s] := by
  cases n with
  | zero => rfl
  | succ k => simp [splitLoop, h]

theorem splitLoop_ne_nil (sep : Str) : ∀ (n : Nat) (s : Str), splitLoop sep n s ≠ []
  | 0, _ => by simp [splitLoop]
  | k + 1, s => by
    unfold splitLoop
    cases index s sep <;> simp

theorem join_cons_of_ne_nil (a sep : Str) {l : List Str} (h : l ≠ []) :
    join (a :: l) sep = a ++ sep ++ join l sep := by
  cases l with
  | nil => exact absurd rfl h
  | cons b rest => rfl

/-- Joining what `splitLoop` cut gives the string back. -/
theorem join_splitLoop (sep : Str) : ∀ (n : Nat) (s : Str), join (splitLoop sep n s) sep = s
  | 0, _ => rfl
  | k + 1, s => by
    unfold splitLoop
    cases hi : index s sep with
    | none => rfl
    | some m =>
      simp only
      rw [join_cons_of_ne_nil _ _ (splitLoop_ne_nil sep k _), join_splitLoop sep k]
      exact (index_some_split s sep m hi).symm

theorem join_split (s sep : Str) (h : sep ≠ []) : join (split s sep) sep = s := by
  unfold split
  rw [if_neg h]
  exact join_splitLoop sep _ s

theorem split_single_of_not_mem (c : Char) (s : Str) (h : c ∉ s) : split s [c] = [s] := by
  unfold split
  rw [if_neg (by simp)]
  exact splitLoop_of_index_none _ _ (index_single_of_not_mem c s h) _

/-- The two pieces of `SplitN(s, c, 2)` when `c` occurs in `s`. -/
theorem splitN_two_at (c : Char) (pre rest : Str) (h : c ∉ pre) :
    splitN (pre ++ c :: rest) [c] 2 = [pre, rest] := by
  unfold splitN
  have hl : min (2 - 1) (pre ++ c :: rest).length = 1 := by
    simp only [List.length_append, List.length_cons]
    omega
  rw [if_neg (by decide), if_neg (by simp), hl]
  unfold splitLoop
  rw [index_single_at c rest pre h]
  simp [splitLoop]

theorem splitN_two_of_not_mem (c : Char) (s : Str) (h : c ∉ s) : splitN s [c] 2 = [s] := by
  unfold splitN
  rw [if_neg (by decide), if_neg (by simp)]
  exact splitLoop_of_index_none _ _ (index_single_of_not_mem c s h) _

theorem dropWhile_append_cons_of_neg (p : Char → Bool) (x : Char) (b : Str) (hx : p x = false) :
    ∀ (a : Str), List.dropWhile p (a ++ x :: b) = List.dropWhile p a ++ x :: b
  | [] => by simp [List.dropWhile, hx]
  | d :: t => by
    cases hd : p d with
    | false => simp [List.dropWhile, hd]
    | true =>
      simp only [List.cons_append, List.dropWhile, hd]
      exact dropWhile_append_cons_of_neg p x b hx t

theorem rdropWhile_append_cons_of_neg (p : Char → Bool) (x : Char) (a b : Str)
    (hx : p x = false) :
    List.rdropWhile p (a ++ x :: b) = a ++ x :: List.rdropWhile p b := by
  unfold List.rdropWhile
  have e : (a ++ x :: b).reverse = b.reverse ++ x :: a.reverse := by simp
  rw [e, dropWhile_append_cons_of_neg p x a.reverse hx b.reverse]
  simp

theorem trimSpace_append_cons (x : Char) (a b : Str) (hx : isSpace x = false) :
    trimSpace (a ++ x :: b) = List.dropWhile isSpace a ++ x :: List.rdropWhile isSpace b := by
  unfold trimSpace
  rw [dropWhile_append_cons_of_neg isSpace x b hx a,
    rdropWhile_append_cons_of_neg isSpace x _ b hx]

theorem not_mem_dropWhile {c : Char} {p : Char → Bool} {a : Str} (h : c ∉ a) :
    c ∉ List.dropWhile p a :=
  fun m => h ((List.dropWhile_suffix p).subset m)

theorem not_mem_trimSpace {c : Char} {a : Str} (h : c ∉ a) : c ∉ trimSpace a := by
  unfold trimSpace
  intro m
  exact not_mem_dropWhile (p := isSpace) h ((List.rdropWhile_prefix isSpace _).subset m)

theorem trimSpace_dropWhile (a : Str) : trimSpace (List.dropWhile isSpace a) = trimSpace a := by
  unfold trimSpace
  rw [List.dropWhile_idempotent]

theorem dropWhile_of_head (p : Char → Bool) (a : Str) (h : ∀ c ∈ a.head?, p c = false) :
    List.dropWhile p a = a := by
  cases a with
  | nil => rfl
  | cons d t =>
    have : p d = false := h d (by simp)
    simp [List.dropWhile, this]

theorem rdropWhile_of_getLast (p : Char → Bool) (a : Str)
    (h : ∀ c ∈ a.getLast?, p c = false) : List.rdropWhile p a = a := by
  rw [List.rdropWhile_eq_self_iff]
  intro hl
  have := h (a.getLast hl) (by simp [List.getLast?_eq_getLast _ hl])
  simp [this]

theorem trimSpace_of_ends (a : Str) (h1 : ∀ c ∈ a.head?, isSpace c = false)
    (h2 : ∀ c ∈ a.getLast?, isSpace c = false) : trimSpace a = a := by
  unfold trimSpace
  rw [dropWhile_of_head _ _ h1, rdropWhile_of_getLast _ _ h2]

theorem shouldTransformKey_starts (r : ChangeSpringPropertyKeyRecipe) (key : Str)
    (h : shouldTransformKey r key = true) : r.OldPropertyKey <+: key := by
  unfold shouldTransformKey at h
  cases hp : hasPrefix key r.OldPropertyKey with
  | true => exact (hasPrefix_iff _ _).1 hp
  | false => simp [hp] at h

theorem shouldTransformKey_of_exception (r : ChangeSpringPropertyKeyRecipe) (key e : Str)
    (he : e ∈ r.Except) (hc : (r.OldPropertyKey ++ ".".toList ++ e) <:+: key) :
    shouldTransformKey r key = false := by
  unfold shouldTransformKey
  split
  · rfl
  · have hl : r.Except.length > 0 := List.length_pos_of_mem he
    rw [if_pos hl]
    cases hx : exceptLoop r.OldPropertyKey key r.Except with
    | false => rfl
    | true => exact absurd ⟨e, he, hc⟩ ((exceptLoop_iff _ _ _).1 hx)

theorem transformPropertyKey_append (r : ChangeSpringPropertyKeyRecipe) (rest : Str) :
    transformPropertyKey r (r.OldPropertyKey ++ rest) = r.NewPropertyKey ++ rest := by
  unfold transformPropertyKey
  rw [if_pos (hasPrefix_append _ _), replaceFirst_at_start]

/-! ## The key transformer -/

/-- C1: `shouldTransformKey(key)` is true exactly when `key` starts with
`OldPropertyKey` and no exception `e` of `Except` makes `key` contain the
substring `OldPropertyKey + "." + e`. -/
theorem shouldTransformKey_iff (r : ChangeSpringPropertyKeyRecipe) (key : Str) :
    shouldTransformKey r key = true ↔
      (r.OldPropertyKey <+: key ∧
        ¬ ∃ e ∈ r.Except, (r.OldPropertyKey ++ ".".toList ++ e) <:+: key) := by
  unfold shouldTransformKey
  by_cases hp : hasPrefix key r.OldPropertyKey = true
  · have hp2 := (hasPrefix_iff _ _).1 hp
    simp only [hp, Bool.not_true, Bool.false_eq_true, if_false, hp2, true_and]
    by_cases hl : r.Except.length > 0
    · simp only [hl, if_true]
      exact exceptLoop_iff _ _ _
    · have : r.Except = [] := List.length_eq_zero.1 (by omega)
      simp [this]
  · have hp2 : ¬ r.OldPropertyKey <+: key := fun h => hp ((hasPrefix_iff _ _).2 h)
    simp [hp, hp2]

/-- C2: on a key that starts with `OldPropertyKey`, `transformPropertyKey`
returns `NewPropertyKey` followed by the part of the key after the leading
`OldPropertyKey` (the first occurrence is the one replaced); a key that does
not start with `OldPropertyKey` is returned unchanged. -/
theorem transformPropertyKey_spec (r : ChangeSpringPropertyKeyRecipe) :
    (∀ rest : Str, transformPropertyKey r (r.OldPropertyKey ++ rest)
        = r.NewPropertyKey ++ rest) ∧
    (∀ k : Str, r.OldPropertyKey <+: k →
        transformPropertyKey r k = r.NewPropertyKey ++ k.drop r.OldPropertyKey.length) ∧
    (∀ k : Str, ¬ r.OldPropertyKey <+: k → transformPropertyKey r k = k) := by
  refine ⟨transformPropertyKey_append r, ?_, ?_⟩
  · rintro k ⟨t, rfl⟩
    rw [transformPropertyKey_append]
    simp
  · intro k hk
    unfold transformPropertyKey
    have : ¬ hasPrefix k r.OldPropertyKey = true := fun h => hk ((hasPrefix_iff _ _).1 h)
    rw [if_neg this]

/-- C2, at a concrete recipe and keys. -/
theorem transformPropertyKey_spec_witness :
    transformPropertyKey (keyRecipe "server.port" "server.http.port" [])
        "server.port.max".toList = "server.http.port.max".toList ∧
    transformPropertyKey (keyRecipe "server.port" "server.http.port" [])
        "my.server.port".toList = "my.server.port".toList :=
  ⟨(transformPropertyKey_spec (keyRecipe "server.port" "server.http.port" [])).2.1
      "server.port.max".toList (by decide),
   (transformPropertyKey_spec (keyRecipe "server.port" "server.http.port" [])).2.2
      "my.server.port".toList (by decide)⟩

/-- C3, refuted as stated: with old key `a.b` and new key `a` (which does not
start with `a.b`), the key `a.b.b` passes `shouldTransformKey`, is rewritten
to `a.b`, and `a.b` passes `shouldTransformKey` again. -/
theorem shouldTransformKey_again_counterexample :
    shouldTransformKey (keyRecipe "a.b" "a" []) "a.b.b".toList = true ∧
    ¬ (keyRecipe "a.b" "a" []).OldPropertyKey <+: (keyRecipe "a.b" "a" []).NewPropertyKey ∧
    transformPropertyKey (keyRecipe "a.b" "a" []) "a.b.b".toList = "a.b".toList ∧
    shouldTransformKey (keyRecipe "a.b" "a" [])
      (transformPropertyKey (keyRecipe "a.b" "a" []) "a.b.b".toList) = true := by
  decide

/-- C3, amended: when `shouldTransformKey(k)` holds and neither of
`OldPropertyKey`, `NewPropertyKey` is a prefix of the other, the rewritten
key does not pass `shouldTransformKey`. -/
theorem shouldTransformKey_transformed (r : ChangeSpringPropertyKeyRecipe) (k : Str)
    (hk : shouldTransformKey r k = true)
    (hon : ¬ r.OldPropertyKey <+: r.NewPropertyKey)
    (hno : ¬ r.NewPropertyKey <+: r.OldPropertyKey) :
    shouldTransformKey r (transformPropertyKey r k) = false := by
  obtain ⟨rest, rfl⟩ := shouldTransformKey_starts r k hk
  rw [transformPropertyKey_append r rest]
  cases hs : shouldTransformKey r (r.NewPropertyKey ++ rest) with
  | false => rfl
  | true =>
    exfalso
    have hp := shouldTransformKey_starts r _ hs
    rcases List.prefix_or_prefix_of_prefix hp (List.prefix_append _ rest) with h | h
    · exact hon h
    · exact hno h

/-- C3 amended, at the spec's own example keys. -/
theorem shouldTransformKey_transformed_witness :
    shouldTransformKey (keyRecipe "management.metrics.binders" "management.metrics.enable" [])
      (transformPropertyKey
        (keyRecipe "management.metrics.binders" "management.metrics.enable" [])
        "management.metrics.binders.jvm.enabled".toList) = false :=
  shouldTransformKey_transformed
    (keyRecipe "management.metrics.binders" "management.metrics.enable" [])
    "management.metrics.binders.jvm.enabled".toList (by decide) (by decide) (by decide)

/-! ## The properties applier -/

theorem exists_first_occurrence (c : Char) : ∀ (s : Str), c ∈ s →
    ∃ rest, s = s.takeWhile (fun d => d != c) ++ c :: rest ∧
      c ∉ s.takeWhile (fun d => d != c)
  | [], h => absurd h (List.not_mem_nil c)
  | d :: t, h => by
    by_cases hd : d = c
    · subst hd
      exact ⟨t, by simp [List.takeWhile], by simp [List.takeWhile]⟩
    · have ht : c ∈ t := by
        rcases List.mem_cons.1 h with e | m
        · exact absurd e.symm hd
        · exact m
      obtain ⟨rest, h1, h2⟩ := exists_first_occurrence c t ht
      have hb : (d != c) = true := by simpa using hd
      refine ⟨rest, ?_, ?_⟩
      · simp only [List.takeWhile, hb, List.cons_append]
        rw [← h1]
      · simp only [List.takeWhile, hb, List.mem_cons, not_or]
        exact ⟨fun e => hd e.symm, h2⟩

theorem propertiesLine_of_no_eq (r : ChangeSpringPropertyKeyRecipe) (s : Str)
    (h : '=' ∉ s) : propertiesLine r s = (s, false) := by
  unfold propertiesLine
  simp only
  split
  · rfl
  · rw [show "=".toList = ['='] from rfl,
      splitN_two_of_not_mem '=' _ (not_mem_trimSpace h)]

theorem propertiesLine_of_eq (r : ChangeSpringPropertyKeyRecipe) (pre rest : Str)
    (h : '=' ∉ pre) :
    propertiesLine r (pre ++ '=' :: rest) =
      if hasPrefix (trimSpace (pre ++ '=' :: rest)) "#".toList = true then
        (pre ++ '=' :: rest, false)
      else if shouldTransformKey r (trimSpace pre) = true then
        if transformPropertyKey r (trimSpace pre) ≠ trimSpace pre then
          (replaceFirst (pre ++ '=' :: rest) (trimSpace pre ++ "=".toList)
            (transformPropertyKey r (trimSpace pre) ++ "=".toList), true)
        else (pre ++ '=' :: rest, false)
      else (pre ++ '=' :: rest, false) := by
  have hne : trimSpace (pre ++ '=' :: rest) ≠ [] := by
    rw [trimSpace_append_cons _ _ _ (by decide)]
    simp
  have hsp : splitN (trimSpace (pre ++ '=' :: rest)) "=".toList 2
      = [List.dropWhile isSpace pre, List.rdropWhile isSpace rest] := by
    rw [trimSpace_append_cons _ _ _ (by decide)]
    exact splitN_two_at '=' _ _ (not_mem_dropWhile h)
  unfold propertiesLine
  simp only [hsp, hne, trimSpace_dropWhile, Bool.or_eq_true, decide_eq_true_eq, or_false]

theorem propertiesLine_unmodified (r : ChangeSpringPropertyKeyRecipe) (s : Str)
    (h : (propertiesLine r s).2 = false) : (propertiesLine r s).1 = s := by
  by_cases he : '=' ∈ s
  · obtain ⟨rest, h1, h2⟩ := exists_first_occurrence '=' s he
    rw [h1] at h ⊢
    rw [propertiesLine_of_eq r _ rest h2] at h ⊢
    split
    · rfl
    · split
      · split
        · rename_i h3 h4 h5
          rw [if_neg h3, if_pos h4, if_pos h5] at h
          exact absurd h (by simp)
        · rfl
      · rfl
  · rw [propertiesLine_of_no_eq r s he]

theorem propertiesLoop_fst (r : ChangeSpringPropertyKeyRecipe) : ∀ (ls : List Str),
    (propertiesLoop r ls).1 = ls.map (fun l => (propertiesLine r l).1)
  | [] => rfl
  | l :: rest => by
    simp only [propertiesLoop, List.map_cons]
    rw [propertiesLoop_fst r rest]

theorem propertiesLoop_unmodified (r : ChangeSpringPropertyKeyRecipe) : ∀ (ls : List Str),
    (propertiesLoop r ls).2 = false → (propertiesLoop r ls).1 = ls
  | [], _ => rfl
  | l :: rest, h => by
    simp only [propertiesLoop, Bool.or_eq_false_iff] at h ⊢
    rw [propertiesLine_unmodified r l h.1, propertiesLoop_unmodified r rest h.2]

/-- The content `applyToProperties` returns is always the join of the
per-line results, whether or not `modified` was set. -/
theorem applyToProperties_content (r : ChangeSpringPropertyKeyRecipe) (f : SpringConfigFile) :
    (applyToProperties r f).Content
      = join (propertiesLoop r (split f.Content "\n".toList)).1 "\n".toList := by
  unfold applyToProperties
  simp only [SpringConfigFile.GetContent, SpringConfigFile.SetContent]
  cases hm : (propertiesLoop r (split f.Content "\n".toList)).2 with
  | true => simp
  | false =>
    simp only [Bool.false_eq_true, if_false]
    rw [propertiesLoop_unmodified r _ hm, join_split _ _ (by decide)]

theorem hasPrefix_hash_append (k x : Str) (hk : k ≠ [])
    (h : hasPrefix k "#".toList = false) : hasPrefix (k ++ x) "#".toList = false := by
  cases k with
  | nil => exact absurd rfl hk
  | cons c t =>
    cases hh : hasPrefix (c :: t ++ x) "#".toList with
    | false => rfl
    | true =>
      obtain ⟨u, hu⟩ := (hasPrefix_iff _ _).1 hh
      have hc : '#' = c := by
        have := congrArg List.head? hu
        simpa using this
      have : hasPrefix (c :: t) "#".toList = true :=
        (hasPrefix_iff _ _).2 ⟨t, by rw [← hc]; rfl⟩
      rw [this] at h
      exact absurd h (by simp)

/-- C4: for a key `K` and value `V` without newline, `K` non-empty, without
`=`, without leading or trailing white space, not starting with `#` and
passing `shouldTransformKey`, `applyToProperties` on the one-line content
`K=V` returns `transformPropertyKey(K)=V`, the value untouched. -/
theorem applyToProperties_single_line (r : ChangeSpringPropertyKeyRecipe)
    (path : Str) (ty : FileType) (K V : Str)
    (hKn : '\n' ∉ K) (hVn : '\n' ∉ V) (hK : K ≠ []) (hKe : '=' ∉ K)
    (hlead : ∀ c ∈ K.head?, isSpace c = false)
    (htrail : ∀ c ∈ K.getLast?, isSpace c = false)
    (hhash : hasPrefix K "#".toList = false)
    (hs : shouldTransformKey r K = true) :
    applyToProperties r ⟨path, K ++ "=".toList ++ V, ty⟩
      = ⟨path, transformPropertyKey r K ++ "=".toList ++ V, ty⟩ := by
  have hc := applyToProperties_content r ⟨path, K ++ "=".toList ++ V, ty⟩
  have hnl : '\n' ∉ K ++ "=".toList ++ V := by
    simp only [List.mem_append, not_or]
    exact ⟨⟨hKn, by decide⟩, hVn⟩
  have hsplit : split (K ++ "=".toList ++ V) "\n".toList = [K ++ "=".toList ++ V] :=
    split_single_of_not_mem '\n' _ hnl
  have htrim : trimSpace K = K := trimSpace_of_ends K hlead htrail
  have hline : (propertiesLine r (K ++ '=' :: V)).1
      = transformPropertyKey r K ++ "=".toList ++ V := by
    rw [propertiesLine_of_eq r K V hKe, htrim]
    have h1 : hasPrefix (trimSpace (K ++ '=' :: V)) "#".toList = false := by
      rw [trimSpace_append_cons _ _ _ (by decide), dropWhile_of_head _ _ hlead]
      exact hasPrefix_hash_append K _ hK hhash
    rw [if_neg (by rw [h1]; decide), if_pos hs]
    by_cases hn : transformPropertyKey r K = K
    · rw [if_neg (by simp [hn]), hn]
      simp
    · rw [if_pos hn]
      have e : K ++ '=' :: V = (K ++ "=".toList) ++ V := by simp
      show replaceFirst (K ++ '=' :: V) _ _ = _
      rw [e, replaceFirst_at_start]
  have e2 : K ++ "=".toList ++ V = K ++ '=' :: V := by simp
  simp only [hsplit] at hc
  have hf : (applyToProperties r ⟨path, K ++ "=".toList ++ V, ty⟩).Path = path
      ∧ (applyToProperties r ⟨path, K ++ "=".toList ++ V, ty⟩).Type_ = ty := by
    unfold applyToProperties
    simp only [SpringConfigFile.SetContent]
    split <;> exact ⟨rfl, rfl⟩
  have hcont : (applyToProperties r ⟨path, K ++ "=".toList ++ V, ty⟩).Content
      = transformPropertyKey r K ++ "=".toList ++ V := by
    rw [hc, e2]
    simp only [propertiesLoop, join]
    exact hline
  cases hres : applyToProperties r ⟨path, K ++ "=".toList ++ V, ty⟩ with
  | mk p c t =>
    rw [hres] at hf hcont
    simp only at hf hcont
    rw [hf.1, hf.2, hcont]

/-- C4, at the spec's example: `management.metrics.binders.jvm.enabled=true`
with old key `management.metrics.binders` and new key
`management.metrics.enable` gives
`management.metrics.enable.jvm.enabled=true`. -/
theorem applyToProperties_single_line_witness :
    applyToProperties
        (keyRecipe "management.metrics.binders" "management.metrics.enable" [])
        ⟨"application.properties".toList,
          "management.metrics.binders.jvm.enabled".toList ++ "=".toList ++ "true".toList,
          FileType.Properties⟩
      = ⟨"application.properties".toList,
          "management.metrics.enable.jvm.enabled=true".toList, FileType.Properties⟩ :=
  applyToProperties_single_line
    (keyRecipe "management.metrics.binders" "management.metrics.enable" [])
    "application.properties".toList FileType.Properties
    "management.metrics.binders.jvm.enabled".toList "true".toList
    (by decide) (by decide) (by decide) (by decide) (by decide) (by decide)
    (by decide) (by decide)

/-- C5: the content `applyToProperties` returns is the join of the per-line
results `out`, as many as the input has lines, and every line whose trimmed
key (the text before its first `=`) contains `OldPropertyKey + "." + e` for
an exception `e` is in `out` unmodified, at its position; so the spec's
example line with exception `jvm` comes back unchanged. -/
theorem applyToProperties_exception :
    (∀ (r : ChangeSpringPropertyKeyRecipe) (f : SpringConfigFile),
      (applyToProperties r f).Content
          = join (propertiesLoop r (split f.Content "\n".toList)).1 "\n".toList ∧
      (propertiesLoop r (split f.Content "\n".toList)).1.length
          = (split f.Content "\n".toList).length ∧
      ∀ (i : Nat) (line : Str), (split f.Content "\n".toList)[i]? = some line →
        (∃ e ∈ r.Except, (r.OldPropertyKey ++ ".".toList ++ e) <:+:
            trimSpace (line.takeWhile (fun c => c != '='))) →
        (propertiesLoop r (split f.Content "\n".toList)).1[i]? = some line) ∧
    applyToProperties
        (keyRecipe "management.metrics.binders" "management.metrics.enable" ["jvm"])
        ⟨"application.properties".toList,
          "management.metrics.binders.jvm.enabled=true".toList, FileType.Properties⟩
      = ⟨"application.properties".toList,
          "management.metrics.binders.jvm.enabled=true".toList, FileType.Properties⟩ := by
  refine ⟨fun r f => ⟨applyToProperties_content r f, ?_, ?_⟩, by decide⟩
  · rw [propertiesLoop_fst, List.length_map]
  · rintro i line hi ⟨e, he, hc⟩
    rw [propertiesLoop_fst, List.getElem?_map, hi]
    simp only [Option.map_some', Option.some.injEq]
    by_cases hm : '=' ∈ line
    · obtain ⟨rest, h1, h2⟩ := exists_first_occurrence '=' line hm
      have hs := shouldTransformKey_of_exception r _ e he hc
      rw [h1, propertiesLine_of_eq r _ rest h2, ← h1, hs]
      split <;> simp
    · rw [propertiesLine_of_no_eq r line hm]

/-- C5, at a two-line content: the second line, whose key contains the
exception, is unmodified in the per-line results. -/
theorem applyToProperties_exception_witness :
    (propertiesLoop
        (keyRecipe "management.metrics.binders" "management.metrics.enable" ["jvm"])
        (split "management.metrics.binders.tomcat=on\n management.metrics.binders.jvm.enabled = true".toList
          "\n".toList)).1[1]?
      = some " management.metrics.binders.jvm.enabled = true".toList :=
  (applyToProperties_exception.1
    (keyRecipe "management.metrics.binders" "management.metrics.enable" ["jvm"])
    ⟨"application.properties".toList,
      "management.metrics.binders.tomcat=on\n management.metrics.binders.jvm.enabled = true".toList,
      FileType.Properties⟩).2.2 1
    " management.metrics.binders.jvm.enabled = true".toList (by decide)
    ⟨"jvm".toList, by decide, by decide⟩

/-! ## The YAML applier -/

theorem contains_single_of_mem (c : Char) (s : Str) (h : c ∈ s) : contains s [c] = true := by
  obtain ⟨rest, h1, h2⟩ := exists_first_occurrence c s h
  unfold contains
  rw [h1, index_single_at c rest _ h2]
  rfl

theorem contains_single_of_not_mem (c : Char) (s : Str) (h : c ∉ s) :
    contains s [c] = false := by
  unfold contains
  rw [index_single_of_not_mem c s h]
  rfl

theorem yamlLine_of_no_colon (r : ChangeSpringPropertyKeyRecipe) (s : Str)
    (h : ':' ∉ s) : yamlLine r s = some (s, false) := by
  unfold yamlLine
  rw [show ":".toList = [':'] from rfl, contains_single_of_not_mem ':' s h]
  rfl

theorem yamlLine_of_colon (r : ChangeSpringPropertyKeyRecipe) (pre rest : Str)
    (h : ':' ∉ pre) :
    yamlLine r (pre ++ ':' :: rest) = some (
      if (trimSpace (pre ++ ':' :: rest)).head? = some '#' then
        (pre ++ ':' :: rest, false)
      else if shouldTransformKey r (trimSpace pre) = true then
        if transformPropertyKey r (trimSpace pre) ≠ trimSpace pre then
          (replaceFirst (pre ++ ':' :: rest) (trimSpace pre ++ ":".toList)
            (transformPropertyKey r (trimSpace pre) ++ ":".toList), true)
        else (pre ++ ':' :: rest, false)
      else (pre ++ ':' :: rest, false)) := by
  have hc : contains (pre ++ ':' :: rest) ":".toList = true :=
    contains_single_of_mem ':' _ (by simp)
  have hsp : splitN (pre ++ ':' :: rest) ":".toList 2 = [pre, rest] :=
    splitN_two_at ':' pre rest h
  have hne : trimSpace (pre ++ ':' :: rest) ≠ [] := by
    rw [trimSpace_append_cons _ _ _ (by decide)]
    simp
  unfold yamlLine
  rw [if_pos hc]
  cases ht : trimSpace (pre ++ ':' :: rest) with
  | nil => exact absurd ht hne
  | cons c t =>
    simp only [sliceFirst, hsp, List.head?_cons, Option.some.injEq]
    by_cases hh : c = '#'
    · subst hh
      simp
    · have hb : ([c] == "#".toList) = false := by
        simpa using hh
      rw [hb]
      simp only [Bool.not_false, if_true, if_neg hh]
      split <;> [split; skip] <;> rfl

theorem yamlLine_isSome (r : ChangeSpringPropertyKeyRecipe) (s : Str) :
    ∃ out, yamlLine r s = some out := by
  by_cases hm : ':' ∈ s
  · obtain ⟨rest, h1, h2⟩ := exists_first_occurrence ':' s hm
    rw [h1, yamlLine_of_colon r _ rest h2]
    exact ⟨_, rfl⟩
  · exact ⟨_, yamlLine_of_no_colon r s hm⟩

/-- The per-line function of the YAML applier, total because `yamlLine`
never panics. -/
theorem yamlLoop_eq_map (r : ChangeSpringPropertyKeyRecipe) : ∀ (ls : List Str),
    ∃ m, yamlLoop r ls
      = some (ls.map (fun l => ((yamlLine r l).getD (l, false)).1), m)
  | [] => ⟨false, rfl⟩
  | l :: rest => by
    obtain ⟨m, hm⟩ := yamlLoop_eq_map r rest
    obtain ⟨out, ho⟩ := yamlLine_isSome r l
    refine ⟨out.2 || m, ?_⟩
    simp only [yamlLoop, ho, hm, List.map_cons, Option.getD_some]

theorem yamlLine_unmodified (r : ChangeSpringPropertyKeyRecipe) (s : Str) (out : Str × Bool)
    (ho : yamlLine r s = some out) (h : out.2 = false) : out.1 = s := by
  by_cases hm : ':' ∈ s
  · obtain ⟨rest, h1, h2⟩ := exists_first_occurrence ':' s hm
    rw [h1, yamlLine_of_colon r _ rest h2] at ho
    rw [← h1] at ho
    simp only [Option.some.injEq] at ho
    subst ho
    split
    · rfl
    · split
      · split
        · rename_i h3 h4 h5
          rw [if_neg h3, if_pos h4, if_pos h5] at h
          exact absurd h (by simp)
        · rfl
      · rfl
  · rw [yamlLine_of_no_colon r s hm] at ho
    simp only [Option.some.injEq] at ho
    subst ho
    rfl

theorem yamlLoop_unmodified (r : ChangeSpringPropertyKeyRecipe) : ∀ (ls : List Str)
    (out : List Str × Bool), yamlLoop r ls = some out → out.2 = false → out.1 = ls
  | [], out, ho, _ => by
    simp only [yamlLoop, Option.some.injEq] at ho
    subst ho
    rfl
  | l :: rest, out, ho, h => by
    obtain ⟨a, ha⟩ := yamlLine_isSome r l
    obtain ⟨m, hm⟩ := yamlLoop_eq_map r rest
    simp only [yamlLoop, ha, hm, Option.some.injEq] at ho
    subst ho
    simp only [Bool.or_eq_false_iff] at h
    have h1 := yamlLine_unmodified r l a ha h.1
    have h2 := yamlLoop_unmodified r rest _ hm h.2
    simp only at h2 ⊢
    rw [h1, h2]

/-- The YAML applier never panics, and the content it returns is the join of
the per-line results. -/
theorem applyToYAML_content (r : ChangeSpringPropertyKeyRecipe) (f : SpringConfigFile) :
    applyToYAML r f = some (f.SetContent
      (join ((split f.Content "\n".toList).map
        (fun l => ((yamlLine r l).getD (l, false)).1)) "\n".toList)) := by
  obtain ⟨m, hm⟩ := yamlLoop_eq_map r (split f.Content "\n".toList)
  unfold applyToYAML
  simp only [SpringConfigFile.GetContent, hm]
  cases m with
  | true => simp
  | false =>
    have := yamlLoop_unmodified r _ _ hm rfl
    simp only at this
    simp only [Bool.false_eq_true, if_false, Option.some.injEq]
    rw [this, join_split _ _ (by decide)]
    rfl

theorem dropWhile_append_of_all (p : Char → Bool) (b : Str) : ∀ (a : Str),
    (∀ c ∈ a, p c = true) → List.dropWhile p (a ++ b) = List.dropWhile p b
  | [], _ => rfl
  | d :: t, h => by
    have hd : p d = true := h d (List.mem_cons_self _ _)
    simp only [List.cons_append, List.dropWhile, hd]
    exact dropWhile_append_of_all p b t (fun c hc => h c (List.mem_cons_of_mem _ hc))

theorem index_after_run (c : Char) (sub rest : Str) : ∀ (a : Str), (∀ d ∈ a, d ≠ c) →
    index (a ++ (c :: sub) ++ rest) (c :: sub) = some a.length
  | [], _ => index_of_hasPrefix (hasPrefix_append (c :: sub) rest)
  | d :: t, h => by
    have hd : d ≠ c := h d (List.mem_cons_self _ _)
    have hp : hasPrefix (d :: (t ++ (c :: sub) ++ rest)) (c :: sub) = false := by
      cases hh : hasPrefix (d :: (t ++ (c :: sub) ++ rest)) (c :: sub) with
      | false => rfl
      | true =>
        obtain ⟨u, hu⟩ := (hasPrefix_iff _ _).1 hh
        simp only [List.cons_append, List.cons.injEq] at hu
        exact absurd hu.1.symm hd
    show index (d :: (t ++ (c :: sub) ++ rest)) (c :: sub) = _
    unfold index
    rw [hp, index_after_run c sub rest t (fun x hx => h x (List.mem_cons_of_mem _ hx))]
    rfl

theorem replaceFirst_after_run (c : Char) (sub rest new a : Str) (h : ∀ d ∈ a, d ≠ c) :
    replaceFirst (a ++ (c :: sub) ++ rest) (c :: sub) new = a ++ new ++ rest := by
  unfold replaceFirst
  by_cases he : c :: sub = new
  · rw [if_pos he, he]
  · rw [if_neg he, index_after_run c sub rest a h]
    simp only [List.append_assoc]
    rw [List.take_left, ← List.append_assoc a (c :: sub) rest,
      ← List.length_append, List.drop_left]

/-- What the loop body of `applyToYAML` does to a key line
`indent + K + ":" + rest`. -/
theorem yamlLine_key_line (r : ChangeSpringPropertyKeyRecipe) (indent K rest : Str)
    (hind : ∀ c ∈ indent, c = ' ') (hK : K ≠ []) (hKc : ':' ∉ K)
    (hlead : ∀ c ∈ K.head?, isSpace c = false)
    (htrail : ∀ c ∈ K.getLast?, isSpace c = false)
    (hhash : hasPrefix K "#".toList = false)
    (hs : shouldTransformKey r K = true) :
    ((yamlLine r (indent ++ K ++ ":".toList ++ rest)).getD
        (indent ++ K ++ ":".toList ++ rest, false)).1
      = indent ++ transformPropertyKey r K ++ ":".toList ++ rest := by
  obtain ⟨k, K1, rfl⟩ := List.exists_cons_of_ne_nil hK
  have hk : isSpace k = false := hlead k (by simp)
  have hsp : ∀ c ∈ indent, isSpace c = true := fun c hc => by
    rw [hind c hc]
    decide
  have hpre : ':' ∉ indent ++ k :: K1 := by
    simp only [List.mem_append, not_or]
    exact ⟨fun hm => absurd (hind _ hm) (by decide), hKc⟩
  have hdrop : List.dropWhile isSpace (indent ++ k :: K1) = k :: K1 := by
    rw [dropWhile_append_of_all isSpace _ indent hsp]
    simp [List.dropWhile, hk]
  have htrim : trimSpace (indent ++ k :: K1) = k :: K1 := by
    unfold trimSpace
    rw [hdrop, rdropWhile_of_getLast _ _ htrail]
  have e : indent ++ k :: K1 ++ ":".toList ++ rest = (indent ++ k :: K1) ++ ':' :: rest := by
    simp
  rw [e, yamlLine_of_colon r _ rest hpre, htrim, Option.getD_some]
  have hhead : (trimSpace ((indent ++ k :: K1) ++ ':' :: rest)).head? ≠ some '#' := by
    rw [trimSpace_append_cons _ _ _ (by decide), hdrop]
    simp only [List.cons_append, List.head?_cons, ne_eq, Option.some.injEq]
    intro hkh
    subst hkh
    revert hhash
    simp [hasPrefix]
  rw [if_neg hhead, if_pos hs]
  by_cases hn : transformPropertyKey r (k :: K1) = k :: K1
  · rw [if_neg (by simp [hn]), hn]
    simp
  · rw [if_pos hn]
    have e2 : (indent ++ k :: K1) ++ ':' :: rest
        = indent ++ (k :: (K1 ++ ":".toList)) ++ rest := by simp
    have e3 : k :: K1 ++ ":".toList = k :: (K1 ++ ":".toList) := rfl
    show replaceFirst _ _ _ = _
    rw [e2, e3, replaceFirst_after_run k _ rest _ indent
      (fun d hd => by
        rw [hind d hd]
        intro hsk
        rw [← hsk] at hk
        revert hk
        decide)]
    simp

/-- C8, refuted as stated: with old key `a` and new key `b`, the second line
of `a: 1\n\ta: 2` is not of the form spaces + K + `:` + rest with `K`
non-empty and without leading white space (it starts with a tab), and it is
rewritten all the same. -/
theorem applyToYAML_other_line_counterexample :
    applyToYAML (keyRecipe "a" "b" [])
        ⟨"application.yml".toList, "a: 1\n\ta: 2".toList, FileType.YAML⟩
      = some ⟨"application.yml".toList, "b: 1\n\tb: 2".toList, FileType.YAML⟩ ∧
    (split "a: 1\n\ta: 2".toList "\n".toList)[1]? = some "\ta: 2".toList ∧
    ∀ indent K rest : Str, (∀ c ∈ indent, c = ' ') → K ≠ [] →
      (∀ c ∈ K.head?, isSpace c = false) →
      "\ta: 2".toList ≠ indent ++ K ++ ":".toList ++ rest := by
  refine ⟨by decide, by decide, ?_⟩
  intro indent K rest hind hK hlead heq
  cases indent with
  | nil =>
    obtain ⟨k, K1, rfl⟩ := List.exists_cons_of_ne_nil hK
    have hk : isSpace k = false := hlead k (by simp)
    have : '\t' = k := by
      have := congrArg List.head? heq
      simpa using this
    rw [← this] at hk
    revert hk
    decide
  | cons d t =>
    have hd : d = ' ' := hind d (List.mem_cons_self _ _)
    have : '\t' = d := by
      have := congrArg List.head? heq
      simpa using this
    rw [hd] at this
    revert this
    decide

/-- C8, amended: `applyToYAML` returns the join of the per-line results
`out`; a line `indent + K + ":" + rest` (indentation of spaces, `K` non-empty,
without `:`, without leading or trailing white space, not starting with `#`,
passing `shouldTransformKey`) becomes
`indent + transformPropertyKey(K) + ":" + rest`; and a line that has no `:`,
or whose trimmed form starts with `#`, or whose trimmed text before the first
`:` does not pass `shouldTransformKey`, is left as it is. -/
theorem applyToYAML_key_line (r : ChangeSpringPropertyKeyRecipe) (f : SpringConfigFile) :
    applyToYAML r f = some (f.SetContent
      (join ((split f.Content "\n".toList).map
        (fun l => ((yamlLine r l).getD (l, false)).1)) "\n".toList)) ∧
    (∀ (i : Nat) (indent K rest : Str),
      (split f.Content "\n".toList)[i]? = some (indent ++ K ++ ":".toList ++ rest) →
      (∀ c ∈ indent, c = ' ') → K ≠ [] → ':' ∉ K →
      (∀ c ∈ K.head?, isSpace c = false) → (∀ c ∈ K.getLast?, isSpace c = false) →
      hasPrefix K "#".toList = false → shouldTransformKey r K = true →
      ((split f.Content "\n".toList).map
        (fun l => ((yamlLine r l).getD (l, false)).1))[i]?
        = some (indent ++ transformPropertyKey r K ++ ":".toList ++ rest)) ∧
    (∀ (i : Nat) (line : Str), (split f.Content "\n".toList)[i]? = some line →
      (':' ∉ line ∨ (trimSpace line).head? = some '#' ∨
        shouldTransformKey r (trimSpace (line.takeWhile (fun c => c != ':'))) = false) →
      ((split f.Content "\n".toList).map
        (fun l => ((yamlLine r l).getD (l, false)).1))[i]? = some line) := by
  refine ⟨applyToYAML_content r f, ?_, ?_⟩
  · intro i indent K rest hi hind hK hKc hlead htrail hhash hs
    rw [List.getElem?_map, hi]
    simp only [Option.map_some', Option.some.injEq]
    exact yamlLine_key_line r indent K rest hind hK hKc hlead htrail hhash hs
  · intro i line hi hcond
    rw [List.getElem?_map, hi]
    simp only [Option.map_some', Option.some.injEq]
    by_cases hm : ':' ∈ line
    · obtain ⟨rest, h1, h2⟩ := exists_first_occurrence ':' line hm
      rw [h1, yamlLine_of_colon r _ rest h2, ← h1, Option.getD_some]
      rcases hcond with h | h | h
      · exact absurd hm h
      · rw [if_pos h]
      · rw [h]
        split <;> simp
    · rw [yamlLine_of_no_colon r line hm]
      rfl

/-- C8 amended, at a three-line document: the indented key line is rewritten
with its indentation and its value kept. -/
theorem applyToYAML_key_line_witness :
    ((split "server:\n  port.http: 8080 # web\n# port.http: x".toList "\n".toList).map
        (fun l => ((yamlLine (keyRecipe "port.http" "port.web" []) l).getD (l, false)).1))[1]?
      = some ("  ".toList ++ transformPropertyKey (keyRecipe "port.http" "port.web" [])
          "port.http".toList ++ ":".toList ++ " 8080 # web".toList) ∧
    ((split "server:\n  port.http: 8080 # web\n# port.http: x".toList "\n".toList).map
        (fun l => ((yamlLine (keyRecipe "port.http" "port.web" []) l).getD (l, false)).1))[2]?
      = some "# port.http: x".toList :=
  ⟨(applyToYAML_key_line (keyRecipe "port.http" "port.web" [])
      ⟨"application.yml".toList,
        "server:\n  port.http: 8080 # web\n# port.http: x".toList, FileType.YAML⟩).2.1
      1 "  ".toList "port.http".toList " 8080 # web".toList
      (by decide) (by decide) (by decide) (by decide) (by decide) (by decide)
      (by decide) (by decide),
   (applyToYAML_key_line (keyRecipe "port.http" "port.web" [])
      ⟨"application.yml".toList,
        "server:\n  port.http: 8080 # web\n# port.http: x".toList, FileType.YAML⟩).2.2
      2 "# port.http: x".toList (by decide) (Or.inr (Or.inl (by decide)))⟩

theorem setContent_self (f : SpringConfigFile) : f.SetContent f.Content = f := by
  cases f
  rfl

/-- C9: a YAML content in which no line has, before its first `:`, a trimmed
text that starts with `OldPropertyKey` is returned unchanged; so the nested
document `management: / metrics: / binders: / jvm: / enabled: true` is left
as it is under old key `management.metrics.binders`, whatever the new key
and the exceptions: no dotted path is rebuilt from the indentation. -/
theorem applyToYAML_no_nested_path :
    (∀ (r : ChangeSpringPropertyKeyRecipe) (f : SpringConfigFile),
      (∀ line ∈ split f.Content "\n".toList, ':' ∈ line →
        ¬ r.OldPropertyKey <+: trimSpace (line.takeWhile (fun c => c != ':'))) →
      applyToYAML r f = some f) ∧
    (∀ (new : Str) (except paths : List Str) (b : BaseRecipe) (path : Str),
      applyToYAML
          { base := b, OldPropertyKey := "management.metrics.binders".toList,
            NewPropertyKey := new, Except := except, PathExpressions := paths }
          ⟨path,
            "management:\n  metrics:\n    binders:\n      jvm:\n        enabled: true".toList,
            FileType.YAML⟩
        = some ⟨path,
            "management:\n  metrics:\n    binders:\n      jvm:\n        enabled: true".toList,
            FileType.YAML⟩) := by
  have main : ∀ (r : ChangeSpringPropertyKeyRecipe) (f : SpringConfigFile),
      (∀ line ∈ split f.Content "\n".toList, ':' ∈ line →
        ¬ r.OldPropertyKey <+: trimSpace (line.takeWhile (fun c => c != ':'))) →
      applyToYAML r f = some f := by
    intro r f h
    have hmap : (split f.Content "\n".toList).map
        (fun l => ((yamlLine r l).getD (l, false)).1) = split f.Content "\n".toList := by
      conv_rhs => rw [← List.map_id (split f.Content "\n".toList)]
      apply List.map_congr_left
      intro line hl
      by_cases hm : ':' ∈ line
      · obtain ⟨rest, h1, h2⟩ := exists_first_occurrence ':' line hm
        have hns : shouldTransformKey r
            (trimSpace (line.takeWhile (fun c => c != ':'))) = false := by
          cases hs : shouldTransformKey r (trimSpace (line.takeWhile (fun c => c != ':'))) with
          | false => rfl
          | true => exact absurd (shouldTransformKey_starts r _ hs) (h line hl hm)
        rw [h1, yamlLine_of_colon r _ rest h2, ← h1, Option.getD_some, hns]
        split <;> simp
      · rw [yamlLine_of_no_colon r line hm]
        rfl
    rw [applyToYAML_content, hmap, join_split _ _ (by decide), setContent_self]
  refine ⟨main, ?_⟩
  intro new except paths b path
  apply main
  show ∀ line ∈ split
      "management:\n  metrics:\n    binders:\n      jvm:\n        enabled: true".toList
      "\n".toList, ':' ∈ line →
    ¬ "management.metrics.binders".toList <+: trimSpace (line.takeWhile (fun c => c != ':'))
  decide

/-- C9, at a flat document whose keys do not start with the old key. -/
theorem applyToYAML_no_nested_path_witness :
    applyToYAML (keyRecipe "server.port" "server.http.port" [])
        ⟨"application.yml".toList, "server:\n  port: 8080".toList, FileType.YAML⟩
      = some ⟨"application.yml".toList, "server:\n  port: 8080".toList, FileType.YAML⟩ :=
  applyToYAML_no_nested_path.1 (keyRecipe "server.port" "server.http.port" [])
    ⟨"application.yml".toList, "server:\n  port: 8080".toList, FileType.YAML⟩ (by decide)

/-! ## The properties insert -/

theorem propertyExistsLoop_of_mem (property : Str) : ∀ (ls : List Str) (line : Str),
    line ∈ ls → trimSpace line ≠ [] → ¬ "#".toList <+: trimSpace line →
    (property ++ "=".toList) <+: trimSpace line → propertyExistsLoop property ls = true
  | [], line, hm, _, _, _ => absurd hm (List.not_mem_nil line)
  | l :: rest, line, hm, hne, hh, hp => by
    unfold propertyExistsLoop
    simp only
    rcases List.mem_cons.1 hm with e | hr
    · subst e
      have h1 : hasPrefix (trimSpace line) "#".toList = false := by
        cases hx : hasPrefix (trimSpace line) "#".toList with
        | false => rfl
        | true => exact absurd ((hasPrefix_iff _ _).1 hx) hh
      have h2 : hasPrefix (trimSpace line) (property ++ "=".toList) = true :=
        (hasPrefix_iff _ _).2 hp
      rw [h1, h2]
      simp [hne]
    · have ih := propertyExistsLoop_of_mem property rest line hr hne hh hp
      rw [ih]
      split
      · rfl
      · split <;> rfl

/-- C10: if some line of the content, trimmed, is non-empty, does not start
with `#` and starts with `Property + "="`, `addToProperties` returns the file
unchanged. -/
theorem addToProperties_noop (r : AddSpringPropertyRecipe) (f : SpringConfigFile)
    (h : ∃ line ∈ split f.Content "\n".toList, trimSpace line ≠ [] ∧
      ¬ "#".toList <+: trimSpace line ∧ (r.Property ++ "=".toList) <+: trimSpace line) :
    addToProperties r f = f := by
  obtain ⟨line, hm, hne, hh, hp⟩ := h
  unfold addToProperties
  simp only [SpringConfigFile.GetContent, propertyExistsInProperties]
  rw [if_pos (propertyExistsLoop_of_mem r.Property _ line hm hne hh hp)]

/-- C10, at a file that already sets `server.port` on an indented line after
a comment. -/
theorem addToProperties_noop_witness :
    addToProperties (addRecipe "server.port" "8080" "the port")
        ⟨"application.properties".toList,
          "# server.port=1\n  server.port=9090\n".toList, FileType.Properties⟩
      = ⟨"application.properties".toList,
          "# server.port=1\n  server.port=9090\n".toList, FileType.Properties⟩ :=
  addToProperties_noop (addRecipe "server.port" "8080" "the port")
    ⟨"application.properties".toList,
      "# server.port=1\n  server.port=9090\n".toList, FileType.Properties⟩
    ⟨"  server.port=9090".toList, by decide, by decide, by decide, by decide⟩

/-! ## The Java applier and `Apply` -/

/-- C6 (the code departs from the claim): the recipe built by
`NewChangeSpringPropertyKeyRecipe` carries the three `application.*` path
expressions only, so `Apply` returns the Java file `src/main/java/App.java`
unchanged whatever its content and the keys, while `applyToJava` itself, the
branch `Apply` has for Java files, does rewrite `@Value("${server.port}")`. -/
theorem Apply_java_file_skipped (oldKey newKey : Str) (except : List Str) (content : Str) :
    DetermineFileType "src/main/java/App.java".toList = FileType.Java ∧
    (NewChangeSpringPropertyKeyRecipe oldKey newKey except).shouldProcessFile
        "src/main/java/App.java".toList = false ∧
    (NewChangeSpringPropertyKeyRecipe oldKey newKey except).Apply
        ⟨"src/main/java/App.java".toList, content, FileType.Java⟩
      = some ⟨"src/main/java/App.java".toList, content, FileType.Java⟩ ∧
    shouldTransformKey
        (NewChangeSpringPropertyKeyRecipe "server.port".toList "server.http.port".toList [])
        "server.port".toList = true ∧
    applyToJava
        (NewChangeSpringPropertyKeyRecipe "server.port".toList "server.http.port".toList [])
        ⟨"src/main/java/App.java".toList, "@Value(\"$\x7bserver.port\x7d\")".toList,
          FileType.Java⟩
      = some ⟨"src/main/java/App.java".toList,
          "@Value(\"$\x7bserver.http.port\x7d\")".toList, FileType.Java⟩ := by
  have h : (NewChangeSpringPropertyKeyRecipe oldKey newKey except).shouldProcessFile
      "src/main/java/App.java".toList = false := by
    show (if ([ "**/application.properties".toList, "**/application.yml".toList,
        "**/application.yaml".toList ] : List Str).length = 0 then true
      else anyGlob "src/main/java/App.java".toList
        [ "**/application.properties".toList, "**/application.yml".toList,
          "**/application.yaml".toList ]) = false
    decide
  refine ⟨by decide, h, ?_, by decide, by decide⟩
  unfold ChangeSpringPropertyKeyRecipe.Apply
  simp only [SpringConfigFile.GetPath, h, Bool.not_false, if_true]

/-- C7 (the code departs from the claim): with old key `a` and new key `b`,
the match `@Value("${a}")` has key `a`, which passes `shouldTransformKey`,
and `applyToJava` returns `@Vblue("${a}")`: `strings.Replace` on the whole
match hits the `a` of `@Value`, not the key. -/
theorem applyToJava_rewrites_annotation_name :
    (compile valuePatternText).map
        (fun re => re.FindStringSubmatch "@Value(\"$\x7ba\x7d\")".toList)
      = some (some ["@Value(\"$\x7ba\x7d\")".toList, "a".toList, []]) ∧
    shouldTransformKey (keyRecipe "a" "b" []) "a".toList = true ∧
    transformPropertyKey (keyRecipe "a" "b" []) "a".toList = "b".toList ∧
    applyToJava (keyRecipe "a" "b" [])
        ⟨"src/main/java/App.java".toList, "@Value(\"$\x7ba\x7d\")".toList, FileType.Java⟩
      = some ⟨"src/main/java/App.java".toList, "@Vblue(\"$\x7ba\x7d\")".toList,
          FileType.Java⟩ := by
  decide

theorem hasSuffix_iff (s p : Str) : hasSuffix s p = true ↔ p <:+ s := by
  unfold hasSuffix
  rw [Bool.and_eq_true, decide_eq_true_eq, decide_eq_true_eq]
  constructor
  · rintro ⟨_, h⟩
    have e := List.take_append_drop (s.length - p.length) s
    rw [h] at e
    exact ⟨_, e⟩
  · rintro ⟨t, rfl⟩
    simp

theorem hasSuffix_newline (s : Str) :
    hasSuffix s "\n".toList = decide (s.getLast? = some '\n') := by
  rw [Bool.eq_iff_iff, hasSuffix_iff, decide_eq_true_eq, List.getLast?_eq_some_iff]
  exact ⟨fun ⟨t, h⟩ => ⟨t, h.symm⟩, fun ⟨t, h⟩ => ⟨t, h.symm⟩⟩

theorem propertyExistsLoop_iff (property : Str) : ∀ (ls : List Str),
    propertyExistsLoop property ls = true ↔
      ∃ line ∈ ls, trimSpace line ≠ [] ∧ ¬ "#".toList <+: trimSpace line ∧
        (property ++ "=".toList) <+: trimSpace line
  | [] => by simp [propertyExistsLoop]
  | l :: rest => by
    constructor
    · intro h
      unfold propertyExistsLoop at h
      simp only at h
      split at h
      · obtain ⟨line, hm, hr⟩ := (propertyExistsLoop_iff property rest).1 h
        exact ⟨line, List.mem_cons_of_mem _ hm, hr⟩
      · rename_i hc
        simp only [Bool.or_eq_true, decide_eq_true_eq, not_or] at hc
        split at h
        · rename_i hp
          exact ⟨l, List.mem_cons_self _ _, hc.2,
            fun hh => hc.1 ((hasPrefix_iff _ _).2 hh), (hasPrefix_iff _ _).1 hp⟩
        · obtain ⟨line, hm, hr⟩ := (propertyExistsLoop_iff property rest).1 h
          exact ⟨line, List.mem_cons_of_mem _ hm, hr⟩
    · rintro ⟨line, hm, hne, hh, hp⟩
      exact propertyExistsLoop_of_mem property _ line hm hne hh hp

/-- What `addToProperties` writes when the property is not found. -/
theorem addToProperties_of_absent (r : AddSpringPropertyRecipe) (f : SpringConfigFile)
    (h : propertyExistsInProperties r f.Content = false) :
    addToProperties r f = f.SetContent
      (f.Content ++ (if f.Content.getLast? = some '\n' then [] else "\n".toList) ++
        (if r.Comment = [] then [] else "# ".toList ++ r.Comment ++ "\n".toList) ++
        r.Property ++ "=".toList ++ r.Value ++ "\n".toList) := by
  unfold addToProperties
  simp only [SpringConfigFile.GetContent, h, Bool.false_eq_true, if_false, hasSuffix_newline]
  by_cases h1 : f.Content.getLast? = some '\n' <;> by_cases h2 : r.Comment = [] <;>
    simp [h1, h2]

/-- C11: when no line of the content, trimmed, is a non-comment, non-blank
line starting with `Property + "="`, `addToProperties` returns the content,
then a newline if the content does not end with one, then `# Comment` and a
newline if `Comment` is non-empty, then `Property=Value` and a newline; and
in every case the original content is a prefix of the result. -/
theorem addToProperties_appends (r : AddSpringPropertyRecipe) (f : SpringConfigFile) :
    ((¬ ∃ line ∈ split f.Content "\n".toList, trimSpace line ≠ [] ∧
        ¬ "#".toList <+: trimSpace line ∧
        (r.Property ++ "=".toList) <+: trimSpace line) →
      addToProperties r f = f.SetContent
        (f.Content ++ (if f.Content.getLast? = some '\n' then [] else "\n".toList) ++
          (if r.Comment = [] then [] else "# ".toList ++ r.Comment ++ "\n".toList) ++
          r.Property ++ "=".toList ++ r.Value ++ "\n".toList)) ∧
    f.Content <+: (addToProperties r f).Content := by
  constructor
  · intro h
    apply addToProperties_of_absent
    cases hx : propertyExistsInProperties r f.Content with
    | false => rfl
    | true => exact absurd ((propertyExistsLoop_iff _ _).1 hx) h
  · cases hx : propertyExistsInProperties r f.Content with
    | false =>
      rw [addToProperties_of_absent r f hx]
      simp only [SpringConfigFile.SetContent, List.append_assoc]
      exact List.prefix_append _ _
    | true =>
      unfold addToProperties
      simp only [SpringConfigFile.GetContent, hx, if_true]
      exact List.prefix_refl _

/-- C11, at a content without final newline and a recipe with a comment. -/
theorem addToProperties_appends_witness :
    addToProperties (addRecipe "server.port" "8080" "the port")
        ⟨"application.properties".toList, "a=1\n#server.port=2".toList, FileType.Properties⟩
      = ⟨"application.properties".toList,
          "a=1\n#server.port=2\n# the port\nserver.port=8080\n".toList,
          FileType.Properties⟩ :=
  (addToProperties_appends (addRecipe "server.port" "8080" "the port")
    ⟨"application.properties".toList, "a=1\n#server.port=2".toList,
      FileType.Properties⟩).1 (by decide)

theorem splitLoop_cut (c : Char) (a b : Str) (h : c ∉ a) (n : Nat) :
    splitLoop [c] (n + 1) (a ++ c :: b) = a :: splitLoop [c] n b := by
  rw [splitLoop, index_single_at c b a h]
  simp

/-- A piece without separator that stands between two separators is one of
the pieces `splitLoop` cuts, given enough cuts. -/
theorem mem_splitLoop_between (c : Char) (L post : Str) (hL : c ∉ L) :
    ∀ (n : Nat) (pre : Str), pre.length + 2 ≤ n →
      L ∈ splitLoop [c] n (pre ++ c :: (L ++ c :: post))
  | 0, _, h => absurd h (by omega)
  | k + 1, pre, h => by
    by_cases hc : c ∈ pre
    · obtain ⟨rest, h1, h2⟩ := exists_first_occurrence c pre hc
      have hlen : rest.length + 2 ≤ k := by
        have := congrArg List.length h1
        simp only [List.length_append, List.length_cons] at this
        omega
      have e : pre ++ c :: (L ++ c :: post)
          = pre.takeWhile (fun d => d != c) ++ c :: (rest ++ c :: (L ++ c :: post)) := by
        conv_lhs => rw [h1]
        simp
      rw [e, splitLoop_cut c _ _ h2]
      exact List.mem_cons_of_mem _ (mem_splitLoop_between c L post hL k rest hlen)
    · rw [splitLoop_cut c _ _ hc]
      obtain ⟨j, rfl⟩ : ∃ j, k = j + 1 := ⟨k - 1, by omega⟩
      rw [splitLoop_cut c _ _ hL]
      simp

theorem mem_split_between (c : Char) (pre L post : Str) (hL : c ∉ L) :
    L ∈ split (pre ++ c :: (L ++ c :: post)) [c] := by
  unfold split
  rw [if_neg (by simp)]
  apply mem_splitLoop_between c L post hL
  simp only [List.length_append, List.length_cons]
  omega

/-- C12, refuted as stated: with property key ` server.port` (a leading
space), the second run of `addToProperties` appends the entry again: the
line it wrote is trimmed before it is compared with the untrimmed key. -/
theorem addToProperties_twice_counterexample :
    addToProperties (addRecipe " server.port" "8080" "")
        ⟨"application.properties".toList, "a=1\n".toList, FileType.Properties⟩
      = ⟨"application.properties".toList, "a=1\n server.port=8080\n".toList,
          FileType.Properties⟩ ∧
    addToProperties (addRecipe " server.port" "8080" "")
        (addToProperties (addRecipe " server.port" "8080" "")
          ⟨"application.properties".toList, "a=1\n".toList, FileType.Properties⟩)
      = ⟨"application.properties".toList,
          "a=1\n server.port=8080\n server.port=8080\n".toList, FileType.Properties⟩ := by
  decide

/-- C12, amended: for a property key that contains no newline and does not
begin with white space or with `#`, and every content, value and comment,
running `addToProperties` on its own output returns that output. -/
theorem addToProperties_idempotent (r : AddSpringPropertyRecipe) (f : SpringConfigFile)
    (hnl : '\n' ∉ r.Property)
    (hhead : ∀ c ∈ r.Property.head?, isSpace c = false ∧ c ≠ '#') :
    addToProperties r (addToProperties r f) = addToProperties r f := by
  cases hx : propertyExistsInProperties r f.Content with
  | true =>
    have e : addToProperties r f = f := by
      unfold addToProperties
      simp only [SpringConfigFile.GetContent, hx, if_true]
    rw [e, e]
  | false =>
    rw [addToProperties_of_absent r f hx]
    -- the text written before the entry ends with a newline
    obtain ⟨pre0, hpre⟩ : ∃ pre0, f.Content ++
        (if f.Content.getLast? = some '\n' then [] else "\n".toList) ++
        (if r.Comment = [] then [] else "# ".toList ++ r.Comment ++ "\n".toList)
        = pre0 ++ ['\n'] := by
      by_cases h2 : r.Comment = []
      · by_cases h1 : f.Content.getLast? = some '\n'
        · obtain ⟨ys, hys⟩ := List.getLast?_eq_some_iff.1 h1
          exact ⟨ys, by simp [h1, h2, hys]⟩
        · exact ⟨f.Content, by simp [h1, h2]⟩
      · exact ⟨f.Content ++ (if f.Content.getLast? = some '\n' then [] else "\n".toList)
          ++ "# ".toList ++ r.Comment, by simp [h2]⟩
    -- the value up to its first newline
    obtain ⟨post, hv1, hv2⟩ := exists_first_occurrence '\n' (r.Value ++ "\n".toList)
      (by simp)
    generalize hV1 : (r.Value ++ "\n".toList).takeWhile (fun d => d != '\n') = V1 at hv1 hv2
    have hcontent : f.Content ++
        (if f.Content.getLast? = some '\n' then [] else "\n".toList) ++
        (if r.Comment = [] then [] else "# ".toList ++ r.Comment ++ "\n".toList) ++
        r.Property ++ "=".toList ++ r.Value ++ "\n".toList
        = pre0 ++ '\n' :: ((r.Property ++ '=' :: V1) ++ '\n' :: post) := by
      rw [hpre]
      have : r.Value ++ "\n".toList = V1 ++ '\n' :: post := hv1
      simp only [List.append_assoc]
      rw [this]
      simp
    have hLnl : '\n' ∉ r.Property ++ '=' :: V1 := by
      simp only [List.mem_append, List.mem_cons, not_or]
      exact ⟨hnl, by decide, hv2⟩
    have hmem := mem_split_between '\n' pre0 _ post hLnl
    have hdrop : List.dropWhile isSpace r.Property = r.Property :=
      dropWhile_of_head _ _ (fun c hc => (hhead c hc).1)
    have htrim : trimSpace (r.Property ++ '=' :: V1)
        = r.Property ++ '=' :: List.rdropWhile isSpace V1 := by
      rw [trimSpace_append_cons _ _ _ (by decide), hdrop]
    have hexists : propertyExistsInProperties r
        (f.SetContent (f.Content ++
          (if f.Content.getLast? = some '\n' then [] else "\n".toList) ++
          (if r.Comment = [] then [] else "# ".toList ++ r.Comment ++ "\n".toList) ++
          r.Property ++ "=".toList ++ r.Value ++ "\n".toList)).Content = true := by
      unfold propertyExistsInProperties
      simp only [SpringConfigFile.SetContent]
      rw [hcontent]
      apply propertyExistsLoop_of_mem r.Property _ _ hmem
      · rw [htrim]
        simp
      · rw [htrim]
        rintro ⟨u, hu⟩
        cases hP : r.Property with
        | nil =>
          rw [hP] at hu
          have := congrArg List.head? hu
          simp at this
        | cons d t =>
          rw [hP] at hu
          have := congrArg List.head? hu
          have hd : d ≠ '#' := (hhead d (by simp [hP])).2
          simp at this
          exact hd this.symm
      · rw [htrim]
        exact ⟨List.rdropWhile isSpace V1, by simp⟩
    unfold addToProperties
    simp only [SpringConfigFile.GetContent] at hexists ⊢
    rw [if_pos hexists]

/-- C12 amended, at an empty file and a recipe with a comment. -/
theorem addToProperties_idempotent_witness :
    addToProperties (addRecipe "server.port" "8080" "the port")
        (addToProperties (addRecipe "server.port" "8080" "the port")
          ⟨"application.properties".toList, [], FileType.Properties⟩)
      = addToProperties (addRecipe "server.port" "8080" "the port")
          ⟨"application.properties".toList, [], FileType.Properties⟩ :=
  addToProperties_idempotent (addRecipe "server.port" "8080" "the port")
    ⟨"application.properties".toList, [], FileType.Properties⟩ (by decide) (by decide)

/-! ## The YAML insert -/

theorem propertyExistsInYAML_nil (r : AddSpringPropertyRecipe) :
    propertyExistsInYAML r [] = false := by
  unfold propertyExistsInYAML
  have h : split ([] : Str) "\n".toList = [[]] := by decide
  simp only [h, leafExistsLoop]
  have : hasPrefix (trimSpace [])
      ((split r.Property ".".toList).getD ((split r.Property ".".toList).length - 1) []
        ++ ":".toList) = false := by
    simp [hasPrefix, trimSpace, List.rdropWhile]
  rw [this]
  rfl

/-- C13, refuted as stated: on an empty content `addToYAML` with property
`server.port`, value `8080` and no comment returns a newline followed by the
block, not the block alone (`convertToYAML` is the block). -/
theorem addToYAML_empty_counterexample :
    convertToYAML (addRecipe "server.port" "8080" "") = "server:\n  port: 8080\n".toList ∧
    (addToYAML (addRecipe "server.port" "8080" "")
        ⟨"application.yml".toList, [], FileType.YAML⟩).Content
      = "\nserver:\n  port: 8080\n".toList ∧
    (addToYAML (addRecipe "server.port" "8080" "")
        ⟨"application.yml".toList, [], FileType.YAML⟩).Content
      ≠ "server:\n  port: 8080\n".toList := by
  decide

/-- C13, amended: on an empty content `addToYAML` returns one newline
followed by `convertToYAML()`, for every recipe; for property `server.port`,
value `8080` and no comment that is `\nserver:\n  port: 8080\n`, without
comment line. -/
theorem addToYAML_empty :
    (∀ (r : AddSpringPropertyRecipe) (path : Str) (ty : FileType),
      addToYAML r ⟨path, [], ty⟩ = ⟨path, "\n".toList ++ convertToYAML r, ty⟩) ∧
    addToYAML (addRecipe "server.port" "8080" "")
        ⟨"application.yml".toList, [], FileType.YAML⟩
      = ⟨"application.yml".toList, "\nserver:\n  port: 8080\n".toList, FileType.YAML⟩ := by
  refine ⟨?_, by decide⟩
  intro r path ty
  unfold addToYAML
  simp only [SpringConfigFile.GetContent, propertyExistsInYAML_nil, Bool.false_eq_true,
    if_false, SpringConfigFile.SetContent]
  have : hasSuffix ([] : Str) ['\n'] = false := by decide
  simp [this]

theorem not_mem_of_mem_splitLoop (c : Char) : ∀ (n : Nat) (s : Str), s.length ≤ n →
    ∀ piece ∈ splitLoop [c] n s, c ∉ piece
  | 0, s, h, piece, hm => by
    have hs : s = [] := List.length_eq_zero.1 (by omega)
    simp only [splitLoop, List.mem_singleton] at hm
    rw [hm, hs]
    exact List.not_mem_nil c
  | k + 1, s, h, piece, hm => by
    by_cases hc : c ∈ s
    · obtain ⟨rest, h1, h2⟩ := exists_first_occurrence c s hc
      have hlen : rest.length ≤ k := by
        have := congrArg List.length h1
        simp only [List.length_append, List.length_cons] at this
        omega
      rw [h1, splitLoop_cut c _ _ h2] at hm
      rcases List.mem_cons.1 hm with e | hr
      · rw [e]
        exact h2
      · exact not_mem_of_mem_splitLoop c k rest hlen piece hr
    · rw [splitLoop_of_index_none _ _ (index_single_of_not_mem c s hc)] at hm
      rw [List.mem_singleton.1 hm]
      exact hc

theorem length_splitLoop (c : Char) : ∀ (n : Nat) (s : Str), s.length ≤ n →
    (splitLoop [c] n s).length = s.count c + 1
  | 0, s, h => by
    have hs : s = [] := List.length_eq_zero.1 (by omega)
    simp [splitLoop, hs]
  | k + 1, s, h => by
    by_cases hc : c ∈ s
    · obtain ⟨rest, h1, h2⟩ := exists_first_occurrence c s hc
      have hlen : rest.length ≤ k := by
        have := congrArg List.length h1
        simp only [List.length_append, List.length_cons] at this
        omega
      have hcount : s.count c = rest.count c + 1 := by
        conv_lhs => rw [h1]
        rw [List.count_append, List.count_eq_zero_of_not_mem h2]
        simp
      rw [hcount, h1, splitLoop_cut c _ _ h2, List.length_cons,
        length_splitLoop c k rest hlen]
    · rw [splitLoop_of_index_none _ _ (index_single_of_not_mem c s hc),
        List.count_eq_zero_of_not_mem hc]
      rfl

theorem length_split_single (c : Char) (s : Str) : (split s [c]).length = s.count c + 1 := by
  unfold split
  rw [if_neg (by simp)]
  exact length_splitLoop c _ s (Nat.le_refl _)

theorem not_mem_of_mem_split (c : Char) (s : Str) : ∀ piece ∈ split s [c], c ∉ piece := by
  unfold split
  rw [if_neg (by simp)]
  exact not_mem_of_mem_splitLoop c _ s (Nat.le_refl _)

theorem yamlPartsLoop_eq (value : Str) (n : Nat) : ∀ (parts : List Str) (i : Nat) (indent : Str),
    yamlPartsLoop value n i indent parts
      = ((List.range parts.length).map (fun j =>
          indent ++ List.replicate (2 * j) ' ' ++ parts.getD j [] ++ ":".toList ++
            (if i + j = n - 1 then
              " ".toList ++
                (if needsQuotes value then "\"".toList ++ value ++ "\"".toList else value)
            else []) ++ "\n".toList)).flatten
  | [], _, _ => rfl
  | part :: rest, i, indent => by
    rw [yamlPartsLoop, yamlPartsLoop_eq value n rest (i + 1) (indent ++ "  ".toList)]
    rw [List.length_cons, List.range_succ_eq_map, List.map_cons, List.flatten_cons,
      List.map_map]
    congr 1
    · simp
    · congr 1
      apply List.map_congr_left
      intro j _
      have e1 : 2 * (j + 1) = 2 * j + 1 + 1 := by omega
      have e2 : i + 1 + j = i + (j + 1) := by omega
      simp only [Function.comp, e1, e2, List.replicate_succ, List.getD_cons_succ]
      simp

/-- C14: with `parts` the dot-separated segments of the property key (their
join with `.` is the key, none contains a dot, and there is one more of them
than dots in the key), `convertToYAML` is the optional line `# Comment`
followed by one line per segment: line `i` is `2*i` spaces, the segment and
`:`, the last line also carries a space and the value, in double quotes
exactly when `needsQuotes(Value)`; every line ends with a newline. -/
theorem convertToYAML_lines (r : AddSpringPropertyRecipe) :
    join (split r.Property ".".toList) ".".toList = r.Property ∧
    (∀ part ∈ split r.Property ".".toList, '.' ∉ part) ∧
    (split r.Property ".".toList).length = r.Property.count '.' + 1 ∧
    convertToYAML r
      = (if r.Comment = [] then [] else "# ".toList ++ r.Comment ++ "\n".toList) ++
        ((List.range (split r.Property ".".toList).length).map (fun i =>
          List.replicate (2 * i) ' ' ++ (split r.Property ".".toList).getD i [] ++
            ":".toList ++
            (if i = (split r.Property ".".toList).length - 1 then
              " ".toList ++
                (if needsQuotes r.Value = true then "\"".toList ++ r.Value ++ "\"".toList
                 else r.Value)
            else []) ++ "\n".toList)).flatten := by
  refine ⟨join_split _ _ (by decide), not_mem_of_mem_split '.' r.Property,
    length_split_single '.' r.Property, ?_⟩
  unfold convertToYAML
  simp only [yamlPartsLoop_eq, List.nil_append, Nat.zero_add]
  by_cases hc : r.Comment = [] <;> simp [hc]

theorem specialLoop_iff (value : Str) : ∀ (cs : List Char),
    specialLoop value (cs.map (fun c => [c])) = true ↔ ∃ c ∈ cs, c ∈ value
  | [] => by simp [specialLoop]
  | d :: rest => by
    simp only [List.map_cons, specialLoop]
    by_cases hd : d ∈ value
    · rw [contains_single_of_mem d value hd]
      simp only [if_true, true_iff]
      exact ⟨d, List.mem_cons_self _ _, hd⟩
    · rw [contains_single_of_not_mem d value hd]
      simp only [Bool.false_eq_true, if_false, specialLoop_iff value rest, List.mem_cons]
      constructor
      · rintro ⟨c, hc, hv⟩
        exact ⟨c, Or.inr hc, hv⟩
      · rintro ⟨c, hc | hc, hv⟩
        · exact absurd (hc ▸ hv) hd
        · exact ⟨c, hc, hv⟩

/-- C15: `needsQuotes(v)` is true exactly when `v` contains one of the
characters `: [ ] { } , & * # ? | - < > = ! % @` or a backtick, or contains
two or more dots; `8080` and `1.5` are not quoted, `1.2.3` and `a-b` are. -/
theorem needsQuotes_iff :
    (∀ v : Str, needsQuotes v = true ↔
      ((∃ c ∈ ":[]\x7b\x7d,&*#?|-<>=!%@`".toList, c ∈ v) ∨ 2 ≤ v.count '.')) ∧
    needsQuotes "8080".toList = false ∧ needsQuotes "1.5".toList = false ∧
    needsQuotes "1.2.3".toList = true ∧ needsQuotes "a-b".toList = true := by
  refine ⟨?_, by decide, by decide, by decide, by decide⟩
  intro v
  have hs : specialChars = (":[]\x7b\x7d,&*#?|-<>=!%@`".toList).map (fun c => [c]) := by
    decide
  unfold needsQuotes
  rw [hs]
  by_cases h1 : specialLoop v ((":[]\x7b\x7d,&*#?|-<>=!%@`".toList).map (fun c => [c])) = true
  · rw [if_pos h1]
    simp only [true_iff]
    exact Or.inl ((specialLoop_iff v _).1 h1)
  · rw [if_neg h1]
    have hn : ¬ ∃ c ∈ ":[]\x7b\x7d,&*#?|-<>=!%@`".toList, c ∈ v :=
      fun h => h1 ((specialLoop_iff v _).2 h)
    have hlen := length_split_single '.' v
    have hl : (split v ".".toList).length = v.count '.' + 1 := hlen
    by_cases hd : '.' ∈ v
    · have hc : contains v ".".toList = true := contains_single_of_mem '.' v hd
      simp only [hc, Bool.true_and, decide_eq_true_eq, hl, hn, false_or]
      constructor
      · intro h
        split at h
        · omega
        · exact absurd h (by simp)
      · intro h
        rw [if_pos (by omega)]
    · have hc : contains v ".".toList = false := contains_single_of_not_mem '.' v hd
      have h0 : v.count '.' = 0 := List.count_eq_zero_of_not_mem hd
      rw [hc]
      simp only [Bool.false_and, Bool.false_eq_true, if_false, false_iff]
      rintro (h | h)
      · exact hn h
      · omega

theorem leafExistsLoop_iff (leafKey : Str) : ∀ (ls : List Str),
    leafExistsLoop leafKey ls = true ↔
      ∃ line ∈ ls, (leafKey ++ ":".toList) <+: trimSpace line
  | [] => by simp [leafExistsLoop]
  | l :: rest => by
    simp only [leafExistsLoop, List.mem_cons]
    by_cases hp : hasPrefix (trimSpace l) (leafKey ++ ":".toList) = true
    · rw [if_pos hp]
      simp only [true_iff]
      exact ⟨l, Or.inl rfl, (hasPrefix_iff _ _).1 hp⟩
    · rw [if_neg hp, leafExistsLoop_iff leafKey rest]
      constructor
      · rintro ⟨line, hm, h⟩
        exact ⟨line, Or.inr hm, h⟩
      · rintro ⟨line, hm | hm, h⟩
        · exact absurd ((hasPrefix_iff _ _).2 (hm ▸ h)) hp
        · exact ⟨line, hm, h⟩

/-- C16: with `leaf` the last dot-separated segment of the property key,
`addToYAML` returns the file unchanged when some line of the content,
trimmed, starts with `leaf:`, wherever that line is nested (so `server.port`
on `other:\n  port: 1` is a no-op); otherwise the result is the content, a
newline if the content did not end with one, then `convertToYAML()`. -/
theorem addToYAML_leaf_check :
    (∀ (r : AddSpringPropertyRecipe) (f : SpringConfigFile) (leaf : Str),
      (split r.Property ".".toList).getLast? = some leaf →
      ((∃ line ∈ split f.Content "\n".toList, (leaf ++ ":".toList) <+: trimSpace line) →
        addToYAML r f = f) ∧
      ((¬ ∃ line ∈ split f.Content "\n".toList, (leaf ++ ":".toList) <+: trimSpace line) →
        addToYAML r f = f.SetContent
          (f.Content ++ (if f.Content.getLast? = some '\n' then [] else "\n".toList) ++
            convertToYAML r))) ∧
    addToYAML (addRecipe "server.port" "8080" "")
        ⟨"application.yml".toList, "other:\n  port: 1".toList, FileType.YAML⟩
      = ⟨"application.yml".toList, "other:\n  port: 1".toList, FileType.YAML⟩ := by
  refine ⟨?_, by decide⟩
  intro r f leaf hleaf
  have hget : (split r.Property ".".toList).getD
      ((split r.Property ".".toList).length - 1) [] = leaf := by
    rw [List.getLast?_eq_getElem?] at hleaf
    rw [List.getD_eq_getElem?_getD, hleaf]
    rfl
  have hiff : propertyExistsInYAML r f.Content = true ↔
      ∃ line ∈ split f.Content "\n".toList, (leaf ++ ":".toList) <+: trimSpace line := by
    unfold propertyExistsInYAML
    simp only [hget]
    exact leafExistsLoop_iff leaf _
  constructor
  · intro h
    unfold addToYAML
    simp only [SpringConfigFile.GetContent]
    rw [if_pos (hiff.2 h)]
  · intro h
    have hx : propertyExistsInYAML r f.Content = false := by
      cases hh : propertyExistsInYAML r f.Content with
      | false => rfl
      | true => exact absurd (hiff.1 hh) h
    unfold addToYAML
    simp only [SpringConfigFile.GetContent, hx, Bool.false_eq_true, if_false,
      hasSuffix_newline]
    by_cases h1 : f.Content.getLast? = some '\n' <;> simp [h1]

/-- C16, at a content with the leaf key nested elsewhere, and one without. -/
theorem addToYAML_leaf_check_witness :
    addToYAML (addRecipe "server.port" "8080" "")
        ⟨"application.yml".toList, "mail:\n    port: 25\n".toList, FileType.YAML⟩
      = ⟨"application.yml".toList, "mail:\n    port: 25\n".toList, FileType.YAML⟩ ∧
    addToYAML (addRecipe "server.port" "8080" "")
        ⟨"application.yml".toList, "mail:\n  host: x".toList, FileType.YAML⟩
      = (⟨"application.yml".toList, "mail:\n  host: x".toList, FileType.YAML⟩ :
          SpringConfigFile).SetContent
          ("mail:\n  host: x".toList ++
            (if "mail:\n  host: x".toList.getLast? = some '\n' then [] else "\n".toList) ++
            convertToYAML (addRecipe "server.port" "8080" "")) :=
  ⟨(addToYAML_leaf_check.1 (addRecipe "server.port" "8080" "")
      ⟨"application.yml".toList, "mail:\n    port: 25\n".toList, FileType.YAML⟩
      "port".toList (by decide)).1 (by decide),
   (addToYAML_leaf_check.1 (addRecipe "server.port" "8080" "")
      ⟨"application.yml".toList, "mail:\n  host: x".toList, FileType.YAML⟩
      "port".toList (by decide)).2 (by decide)⟩

/-! ## The glob matcher -/

/-- C17: the four documented results of `MatchGlob`, each without error. -/
theorem MatchGlob_documented :
    MatchGlob "a/b/c.properties".toList "**/application.properties".toList = some false ∧
    MatchGlob "a/application.properties".toList "**/application.properties".toList
      = some true ∧
    MatchGlob "x.properties".toList "*.properties".toList = some true ∧
    MatchGlob "x.props".toList "*.properties".toList = some false := by
  decide

/-! ## The matcher finds a match exactly when there is one -/

theorem matchStar_isSome (a : Atom) (k : Str → Option (List Str)) : ∀ (s : Str),
    (matchStar a k s).isSome = true ↔
      ∃ u v, s = u ++ v ∧ (∀ c ∈ u, a.accepts c = true) ∧ (k v).isSome = true
  | [] => by
    simp only [matchStar, Option.isSome_map']
    constructor
    · intro h
      exact ⟨[], [], rfl, by simp, h⟩
    · rintro ⟨u, v, h, _, hk⟩
      have hv : v = [] := (List.append_eq_nil.1 h.symm).2
      rw [hv] at hk
      exact hk
  | c :: s => by
    have ih := matchStar_isSome a k s
    unfold matchStar
    by_cases hc : a.accepts c = true
    · rw [if_pos hc]
      cases hm : matchStar a k s with
      | some r =>
        simp only [Option.isSome_some, true_iff]
        obtain ⟨u, v, h1, h2, h3⟩ := ih.1 (by rw [hm]; rfl)
        refine ⟨c :: u, v, by rw [h1]; rfl, ?_, h3⟩
        intro d hd
        rcases List.mem_cons.1 hd with e | e
        · rw [e]; exact hc
        · exact h2 d e
      | none =>
        simp only [Option.isSome_map']
        constructor
        · intro h
          exact ⟨[], c :: s, rfl, by simp, h⟩
        · rintro ⟨u, v, h1, h2, h3⟩
          cases u with
          | nil =>
            simp only [List.nil_append] at h1
            rw [h1]; exact h3
          | cons d u1 =>
            simp only [List.cons_append, List.cons.injEq] at h1
            have : (matchStar a k s).isSome = true :=
              ih.2 ⟨u1, v, h1.2, fun x hx => h2 x (List.mem_cons_of_mem _ hx), h3⟩
            rw [hm] at this
            exact absurd this (by simp)
    · rw [if_neg hc]
      simp only [Option.isSome_map']
      constructor
      · intro h
        exact ⟨[], c :: s, rfl, by simp, h⟩
      · rintro ⟨u, v, h1, h2, h3⟩
        cases u with
        | nil =>
          simp only [List.nil_append] at h1
          rw [h1]; exact h3
        | cons d u1 =>
          simp only [List.cons_append, List.cons.injEq] at h1
          exact absurd (h1.1 ▸ h2 d (List.mem_cons_self _ _)) hc

/-- The backtracking search of `matchItems` succeeds exactly on the texts the
items accept. -/
theorem matchItems_isSome (eol : Bool) : ∀ (items : List Item) (s : Str),
    (matchItems eol items s).isSome = true ↔ Accepts eol items s
  | [], s => by
    unfold matchItems Accepts
    cases eol <;> cases s <;> simp
  | Item.gopen :: rest, s => by
    unfold matchItems Accepts
    rw [Option.isSome_map']
    exact matchItems_isSome eol rest s
  | Item.gclose :: rest, s => by
    unfold matchItems Accepts
    rw [Option.isSome_map']
    exact matchItems_isSome eol rest s
  | Item.rep a Rep.one :: rest, s => by
    unfold matchItems Accepts
    cases s with
    | nil => simp
    | cons c t =>
      by_cases hc : a.accepts c = true
      · simp only [hc, if_true, Option.isSome_map', matchItems_isSome eol rest t]
        constructor
        · intro h
          exact ⟨c, t, rfl, hc, h⟩
        · rintro ⟨c1, t1, h1, _, h3⟩
          simp only [List.cons.injEq] at h1
          rw [h1.2]; exact h3
      · simp only [hc, Bool.false_eq_true, if_false]
        constructor
        · intro h
          exact absurd h (by simp)
        · rintro ⟨c1, t1, h1, h2, _⟩
          simp only [List.cons.injEq] at h1
          rw [← h1.1] at h2
          exact absurd h2 hc
  | Item.rep a Rep.opt :: rest, s => by
    unfold matchItems Accepts
    cases s with
    | nil =>
      simp only [Option.isSome_map', matchItems_isSome eol rest []]
      constructor
      · intro h
        exact Or.inr h
      · rintro (⟨c, t, h, _⟩ | h)
        · exact absurd h (by simp)
        · exact h
    | cons c t =>
      by_cases hc : a.accepts c = true
      · simp only [hc, if_true]
        cases hm : matchItems eol rest t with
        | some ps =>
          simp only [Option.isSome_some, true_iff]
          exact Or.inl ⟨c, t, rfl, hc,
            (matchItems_isSome eol rest t).1 (by rw [hm]; rfl)⟩
        | none =>
          simp only [Option.isSome_map', matchItems_isSome eol rest (c :: t)]
          constructor
          · intro h
            exact Or.inr h
          · rintro (⟨c1, t1, h1, _, h3⟩ | h)
            · simp only [List.cons.injEq] at h1
              rw [← h1.2] at h3
              have := (matchItems_isSome eol rest t).2 h3
              rw [hm] at this
              exact absurd this (by simp)
            · exact h
      · simp only [hc, Bool.false_eq_true, if_false, Option.isSome_map',
          matchItems_isSome eol rest (c :: t)]
        constructor
        · intro h
          exact Or.inr h
        · rintro (⟨c1, t1, h1, h2, _⟩ | h)
          · simp only [List.cons.injEq] at h1
            rw [← h1.1] at h2
            exact absurd h2 hc
          · exact h
  | Item.rep a Rep.star :: rest, s => by
    unfold matchItems Accepts
    rw [Option.isSome_map', matchStar_isSome]
    constructor
    · rintro ⟨u, v, h1, h2, h3⟩
      exact ⟨u, v, h1, h2, (matchItems_isSome eol rest v).1 h3⟩
    · rintro ⟨u, v, h1, h2, h3⟩
      exact ⟨u, v, h1, h2, (matchItems_isSome eol rest v).2 h3⟩
  | Item.rep a Rep.plus :: rest, s => by
    unfold matchItems Accepts
    cases s with
    | nil =>
      simp
    | cons c t =>
      by_cases hc : a.accepts c = true
      · simp only [hc, if_true, Option.isSome_map', matchStar_isSome]
        constructor
        · rintro ⟨u, v, h1, h2, h3⟩
          exact ⟨c, u, v, by rw [h1], hc, h2, (matchItems_isSome eol rest v).1 h3⟩
        · rintro ⟨c1, u, v, h1, _, h2, h3⟩
          simp only [List.cons.injEq] at h1
          exact ⟨u, v, h1.2, h2, (matchItems_isSome eol rest v).2 h3⟩
      · simp only [hc, Bool.false_eq_true, if_false]
        constructor
        · intro h
          exact absurd h (by simp)
        · rintro ⟨c1, u, v, h1, h2, _⟩
          simp only [List.cons.injEq] at h1
          rw [← h1.1] at h2
          exact absurd h2 hc

/-! ## `strings.ReplaceAll` on a text made of pieces -/

theorem hasPrefix_two (a b : Char) (s : Str) :
    hasPrefix s [a, b] = true ↔ ∃ R, s = a :: b :: R := by
  rw [hasPrefix_iff]
  constructor
  · rintro ⟨R, h⟩
    exact ⟨R, h.symm⟩
  · rintro ⟨R, h⟩
    exact ⟨R, h.symm⟩

theorem index_skip_one (a b c : Char) (R : Str) (h : ¬ ∃ R1, c :: R = a :: b :: R1) :
    index (c :: R) [a, b] = (index R [a, b]).map (· + 1) := by
  have hp : hasPrefix (c :: R) [a, b] = false := by
    cases hh : hasPrefix (c :: R) [a, b] with
    | false => rfl
    | true => exact absurd ((hasPrefix_two a b _).1 hh) h
  rw [index, hp]
  rfl

theorem tokOK_ne_nil {a b : Char} {t : Str} (h : TokOK a b t) : t ≠ [] := by
  rcases h with h | ⟨c, h, _⟩ | ⟨c, d, h, _⟩ <;> rw [h] <;> simp

theorem flatten_head_ne (a b : Char) (hab : a ≠ b) : ∀ (rest : List Str),
    (∀ t ∈ rest, TokOK a b t) → ∀ R1, rest.flatten ≠ b :: R1
  | [], _, R1 => by simp
  | t :: rest, h, R1 => by
    intro he
    rw [List.flatten_cons] at he
    rcases h t (List.mem_cons_self _ _) with ht | ⟨c, ht, _, hc⟩ | ⟨c, d, ht, hc, _⟩
    · rw [ht] at he
      simp only [List.cons_append, List.cons.injEq] at he
      exact hab he.1
    · rw [ht] at he
      simp only [List.cons_append, List.cons.injEq] at he
      exact hc he.1
    · rw [ht] at he
      simp only [List.cons_append, List.cons.injEq] at he
      exact hc he.1

theorem index_skip_tok (a b : Char) (hab : a ≠ b) (t : Str) (rest : List Str)
    (ht : TokOK a b t) (hne : t ≠ [a, b]) (hrest : ∀ t1 ∈ rest, TokOK a b t1) :
    index (t ++ rest.flatten) [a, b] = (index rest.flatten [a, b]).map (· + t.length) := by
  rcases ht with ht | ⟨c, ht, hca, _⟩ | ⟨c, d, ht, _, hcd⟩
  · exact absurd ht hne
  · rw [ht]
    apply index_skip_one
    rintro ⟨R1, h⟩
    simp only [List.cons.injEq] at h
    exact hca h.1
  · rw [ht]
    show index (c :: d :: rest.flatten) [a, b] = _
    rw [index_skip_one a b c _, index_skip_one a b d _, Option.map_map]
    · rfl
    · rintro ⟨R1, h⟩
      simp only [List.cons.injEq] at h
      exact flatten_head_ne a b hab rest hrest R1 h.2
    · rintro ⟨R1, h⟩
      simp only [List.cons.injEq] at h
      rcases hcd with h1 | h1
      · exact h1 h.1
      · exact h1 h.2.1

theorem replaceAllLoop_skip (old new t R : Str)
    (h : index (t ++ R) old = (index R old).map (· + t.length)) :
    ∀ (fuel : Nat), replaceAllLoop old new fuel (t ++ R) = t ++ replaceAllLoop old new fuel R
  | 0 => rfl
  | fuel + 1 => by
    rw [replaceAllLoop, replaceAllLoop, h]
    cases index R old with
    | none => rfl
    | some j =>
      simp only [Option.map_some']
      have e1 : j + t.length = t.length + j := Nat.add_comm _ _
      have e2 : t.length + j + old.length = t.length + (j + old.length) := by omega
      rw [e1, e2, List.take_append, List.drop_append]
      simp

theorem replaceAllLoop_nil (old new : Str) (h : index [] old = none) (fuel : Nat) :
    replaceAllLoop old new fuel [] = [] := by
  cases fuel with
  | zero => rfl
  | succ k => rw [replaceAllLoop, h]

/-- On a text made of such pieces, `ReplaceAll` replaces the pieces equal to
the old text and nothing else. -/
theorem replaceAllLoop_tokens (a b : Char) (hab : a ≠ b) (new : Str) :
    ∀ (ts : List Str) (fuel : Nat), (∀ t ∈ ts, TokOK a b t) → ts.count [a, b] ≤ fuel →
      replaceAllLoop [a, b] new fuel ts.flatten
        = (ts.map (fun t => if t = [a, b] then new else t)).flatten
  | [], fuel, _, _ => replaceAllLoop_nil _ _ (by simp [index, hasPrefix]) fuel
  | t :: rest, fuel, h, hf => by
    have hrest : ∀ t1 ∈ rest, TokOK a b t1 := fun t1 h1 => h t1 (List.mem_cons_of_mem _ h1)
    by_cases ht : t = [a, b]
    · subst ht
      rw [List.count_cons_self] at hf
      obtain ⟨k, rfl⟩ : ∃ k, fuel = k + 1 := ⟨fuel - 1, by omega⟩
      rw [List.flatten_cons, replaceAllLoop,
        index_of_hasPrefix (hasPrefix_append [a, b] rest.flatten)]
      simp only [List.take_zero, List.nil_append, Nat.zero_add, List.map_cons, if_true,
        List.flatten_cons]
      have : List.drop ([a, b] : Str).length ([a, b] ++ rest.flatten) = rest.flatten :=
        List.drop_left _ _
      rw [this, replaceAllLoop_tokens a b hab new rest k hrest (by omega)]
    · have hc : rest.count [a, b] ≤ fuel := by
        rw [List.count_cons_of_ne (fun e => ht e.symm)] at hf
        exact hf
      rw [List.flatten_cons, replaceAllLoop_skip _ _ _ _
          (index_skip_tok a b hab t rest (h t (List.mem_cons_self _ _)) ht hrest),
        replaceAllLoop_tokens a b hab new rest fuel hrest hc]
      simp [ht]

theorem index_tokens_none (a b : Char) (hab : a ≠ b) : ∀ (ts : List Str),
    (∀ t ∈ ts, TokOK a b t ∧ t ≠ [a, b]) → index ts.flatten [a, b] = none
  | [], _ => by simp [index, hasPrefix]
  | t :: rest, h => by
    have hrest : ∀ t1 ∈ rest, TokOK a b t1 ∧ t1 ≠ [a, b] :=
      fun t1 h1 => h t1 (List.mem_cons_of_mem _ h1)
    rw [List.flatten_cons, index_skip_tok a b hab t rest (h t (List.mem_cons_self _ _)).1
      (h t (List.mem_cons_self _ _)).2 (fun t1 h1 => (hrest t1 h1).1),
      index_tokens_none a b hab rest hrest]
    rfl

theorem count_le_length_flatten (x : Str) (hx : x ≠ []) : ∀ (ts : List Str),
    ts.count x ≤ ts.flatten.length
  | [] => by simp
  | t :: rest => by
    have ih := count_le_length_flatten x hx rest
    rw [List.flatten_cons, List.length_append, List.count_cons]
    split
    · rename_i he
      have : t = x := by simpa using he
      have : 0 < t.length := by
        rw [this]
        exact List.length_pos.2 hx
      omega
    · omega

theorem replaceAll_tokens (a b : Char) (hab : a ≠ b) (new : Str) (hnew : [a, b] ≠ new)
    (ts : List Str) (h : ∀ t ∈ ts, TokOK a b t) :
    replaceAll ts.flatten [a, b] new
      = (ts.map (fun t => if t = [a, b] then new else t)).flatten := by
  unfold replaceAll
  rw [if_neg hnew, if_neg (by simp)]
  exact replaceAllLoop_tokens a b hab new ts _ h (count_le_length_flatten _ (by simp) ts)

/-! ## What `globToRegex` returns -/

theorem quoteMeta_eq : ∀ (g : Str), quoteMeta g = (g.map quoteToken).flatten
  | [] => rfl
  | c :: rest => by
    rw [quoteMeta, List.map_cons, List.flatten_cons, ← quoteMeta_eq rest]
    unfold quoteToken metaChars
    split <;> rfl

theorem tokOK_quoteToken (c : Char) : TokOK '\\' '*' (quoteToken c) := by
  unfold quoteToken
  split
  · by_cases hc : c = '*'
    · left
      rw [hc]
    · right; right
      exact ⟨'\\', c, rfl, by decide, Or.inr hc⟩
  · rename_i h
    right; left
    refine ⟨c, rfl, ?_, ?_⟩
    · rintro rfl
      exact h (by decide)
    · rintro rfl
      exact h (by decide)

theorem starToken_eq (c : Char) :
    (if quoteToken c = ['\\', '*'] then ".*".toList else quoteToken c) = starToken c := by
  unfold starToken
  by_cases hc : c = '*'
  · subst hc
    rfl
  · rw [if_neg hc]
    have : quoteToken c ≠ ['\\', '*'] := by
      unfold quoteToken
      split
      · intro h
        simp only [List.cons.injEq, and_true, true_and] at h
        exact hc h
      · intro h
        simp at h
    rw [if_neg this]

theorem tokOK_starToken (c : Char) : TokOK '\\' '?' (starToken c) := by
  unfold starToken
  split
  · right; right
    exact ⟨'.', '*', rfl, by decide, Or.inl (by decide)⟩
  · unfold quoteToken
    split
    · by_cases hc : c = '?'
      · left
        rw [hc]
      · right; right
        exact ⟨'\\', c, rfl, by decide, Or.inr hc⟩
    · rename_i h
      right; left
      refine ⟨c, rfl, ?_, ?_⟩
      · rintro rfl
        exact h (by decide)
      · rintro rfl
        exact h (by decide)

theorem globToken_eq (c : Char) :
    (if starToken c = ['\\', '?'] then ".".toList else starToken c) = globToken c := by
  unfold globToken starToken
  by_cases hs : c = '*'
  · subst hs
    rfl
  · rw [if_neg hs, if_neg hs]
    by_cases hq : c = '?'
    · subst hq
      rfl
    · rw [if_neg hq]
      have : quoteToken c ≠ ['\\', '?'] := by
        unfold quoteToken
        split
        · intro h
          simp only [List.cons.injEq, and_true, true_and] at h
          exact hq h
        · intro h
          simp at h
      rw [if_neg this]
      rfl

theorem tokOK_globToken (c : Char) :
    TokOK '\\' '*' (globToken c) ∧ globToken c ≠ ['\\', '*'] := by
  unfold globToken
  split
  · exact ⟨Or.inr (Or.inr ⟨'.', '*', rfl, by decide, Or.inl (by decide)⟩), by decide⟩
  · rename_i hs
    split
    · exact ⟨Or.inr (Or.inl ⟨'.', rfl, by decide, by decide⟩), by decide⟩
    · split
      · refine ⟨Or.inr (Or.inr ⟨'\\', c, rfl, by decide, Or.inr hs⟩), ?_⟩
        intro h
        simp only [List.cons.injEq, and_true, true_and] at h
        exact hs h
      · rename_i h
        refine ⟨Or.inr (Or.inl ⟨c, rfl, ?_, ?_⟩), by simp⟩
        · rintro rfl
          exact h (by decide)
        · rintro rfl
          exact h (by decide)

theorem replaceAll_of_index_none (s old new : Str) (h : index s old = none) :
    replaceAll s old new = s := by
  unfold replaceAll
  split
  · rfl
  · split
    · rename_i ho
      rw [ho, index_of_hasPrefix (by simp [hasPrefix])] at h
      exact absurd h (by simp)
    · cases hl : s.length with
      | zero => rfl
      | succ k => rw [replaceAllLoop, h]

/-- The pattern `globToRegex` returns: `^`, the text of each character of the
glob, `$`; the third `ReplaceAll`, meant for `**`, never finds its text. -/
theorem globToRegex_eq (g : Str) :
    globToRegex g = '^' :: ((g.map globToken).flatten ++ ['$']) := by
  have h1 : replaceAll (quoteMeta g) "\\*".toList ".*".toList = (g.map starToken).flatten := by
    rw [quoteMeta_eq]
    have := replaceAll_tokens '\\' '*' (by decide) ".*".toList (by decide)
      (g.map quoteToken) (by
        intro t ht
        obtain ⟨c, _, rfl⟩ := List.mem_map.1 ht
        exact tokOK_quoteToken c)
    rw [show "\\*".toList = ['\\', '*'] from rfl, this, List.map_map]
    congr 1
    apply List.map_congr_left
    intro c _
    exact starToken_eq c
  have h2 : replaceAll (g.map starToken).flatten "\\?".toList ".".toList
      = (g.map globToken).flatten := by
    have := replaceAll_tokens '\\' '?' (by decide) ".".toList (by decide)
      (g.map starToken) (by
        intro t ht
        obtain ⟨c, _, rfl⟩ := List.mem_map.1 ht
        exact tokOK_starToken c)
    rw [show "\\?".toList = ['\\', '?'] from rfl, this, List.map_map]
    congr 1
    apply List.map_congr_left
    intro c _
    exact globToken_eq c
  have h3 : replaceAll (g.map globToken).flatten "\\.\\*\\.\\*".toList ".*".toList
      = (g.map globToken).flatten := by
    apply replaceAll_of_index_none
    have hnone : index (g.map globToken).flatten ['\\', '*'] = none :=
      index_tokens_none '\\' '*' (by decide) _ (by
        intro t ht
        obtain ⟨c, _, rfl⟩ := List.mem_map.1 ht
        exact tokOK_globToken c)
    cases hi : index (g.map globToken).flatten "\\.\\*\\.\\*".toList with
    | none => rfl
    | some j =>
      exfalso
      have hin : "\\.\\*\\.\\*".toList <:+: (g.map globToken).flatten :=
        ⟨_, _, (index_some_split _ _ j hi).symm⟩
      have hsub : ['\\', '*'] <:+: "\\.\\*\\.\\*".toList := by decide
      exact not_infix_of_index_none _ _ hnone (hsub.trans hin)
  unfold globToRegex
  simp only [h1, h2, h3]
  rfl

/-! ## What the pattern of a glob compiles to -/

theorem readPattern_escaped (c : Char) (hc : (c.toNat < 128 && !c.isAlphanum) = true)
    (bol : Bool) (acc : List Item) (tail : Str) :
    readPattern ⟨bol, false, acc, false, Mode.normal⟩ ('\\' :: c :: tail)
      = readPattern ⟨bol, false, Item.rep (Atom.lit c) Rep.one :: acc, false, Mode.normal⟩
          tail := by
  have h1 : PState.step ⟨bol, false, acc, false, Mode.normal⟩ '\\'
      = some ⟨bol, false, acc, false, Mode.escaped⟩ := rfl
  have h2 : PState.step ⟨bol, false, acc, false, Mode.escaped⟩ c
      = some ⟨bol, false, Item.rep (Atom.lit c) Rep.one :: acc, false, Mode.normal⟩ := by
    simp only [PState.step, hc, if_true, PState.push]
  rw [readPattern, h1]
  simp only
  rw [readPattern, h2]

theorem metaChars_escapable (c : Char) (h : c ∈ metaChars) :
    (c.toNat < 128 && !c.isAlphanum) = true := by
  simp only [metaChars, String.toList, List.mem_cons, List.mem_singleton, List.not_mem_nil,
    or_false] at h
  rcases h with h | h | h | h | h | h | h | h | h | h | h | h | h | h <;> subst h <;> decide

theorem readPattern_token (c : Char) (bol : Bool) (acc : List Item) (tail : Str) :
    readPattern ⟨bol, false, acc, false, Mode.normal⟩ (globToken c ++ tail)
      = readPattern ⟨bol, false, globItem c :: acc, false, Mode.normal⟩ tail := by
  by_cases hs : c = '*'
  · subst hs
    rfl
  · by_cases hq : c = '?'
    · subst hq
      rfl
    · by_cases hm : c ∈ metaChars
      · have e1 : globToken c = ['\\', c] := by
          simp only [globToken, hs, hq, hm, if_false, if_true]
        have e2 : globItem c = Item.rep (Atom.lit c) Rep.one := by
          simp only [globItem, hs, hq, if_false]
        rw [e1, e2]
        exact readPattern_escaped c (metaChars_escapable c hm) bol acc tail
      · have e1 : globToken c = [c] := by
          simp only [globToken, hs, hq, hm, if_false]
        have e2 : globItem c = Item.rep (Atom.lit c) Rep.one := by
          simp only [globItem, hs, hq, if_false]
        rw [e1, e2]
        simp only [metaChars, String.toList, List.mem_cons, List.mem_singleton,
          List.not_mem_nil, or_false, not_or] at hm
        obtain ⟨m1, m2, m3, m4, m5, m6, m7, m8, m9, m10, m11, m12, m13, m14⟩ := hm
        have hstep : PState.step ⟨bol, false, acc, false, Mode.normal⟩ c
            = some ⟨bol, false, Item.rep (Atom.lit c) Rep.one :: acc, false, Mode.normal⟩ := by
          simp only [PState.step, PState.push, m1, m2, m3, m4, m5, m6, m7, m8, m9, m10, m11,
            m12, m13, m14, Bool.false_eq_true, if_false, Bool.or_self, decide_False]
        show readPattern _ (c :: tail) = _
        rw [readPattern, hstep]

theorem readPattern_tokens : ∀ (g : Str) (bol : Bool) (acc : List Item) (tail : Str),
    readPattern ⟨bol, false, acc, false, Mode.normal⟩ ((g.map globToken).flatten ++ tail)
      = readPattern ⟨bol, false, (g.map globItem).reverse ++ acc, false, Mode.normal⟩ tail
  | [], _, _, _ => rfl
  | c :: rest, bol, acc, tail => by
    rw [List.map_cons, List.flatten_cons, List.append_assoc, readPattern_token,
      readPattern_tokens rest bol _ tail]
    simp

/-- The pattern of a glob always compiles: to `^`, one item per character of
the glob, `$`. -/
theorem compile_globToRegex (g : Str) :
    compile (globToRegex g) = some ⟨true, g.map globItem, true⟩ := by
  rw [globToRegex_eq]
  have h0 : readPattern ⟨false, false, [], false, Mode.normal⟩
      ('^' :: ((g.map globToken).flatten ++ ['$']))
      = readPattern ⟨true, false, [], false, Mode.normal⟩
          ((g.map globToken).flatten ++ ['$']) := rfl
  have h1 : ∀ acc : List Item, readPattern ⟨true, false, acc, false, Mode.normal⟩ ['$']
      = some ⟨true, true, acc, false, Mode.normal⟩ := fun _ => rfl
  unfold compile
  rw [h0, readPattern_tokens, h1]
  simp

theorem searchAt_of_bol (re : Regexp) (h : re.bol = true) : ∀ (s : Str) (n : Nat),
    searchAt re s (n + 1) = none
  | [], n => by simp [searchAt, matchAt, h]
  | c :: t, n => by
    rw [searchAt]
    have : matchAt re (c :: t) (n + 1 == 0) = none := by simp [matchAt, h]
    rw [this]
    exact searchAt_of_bol re h t (n + 1)

theorem matchString_of_bol (re : Regexp) (h : re.bol = true) (s : Str) :
    re.MatchString s = (matchItems re.eol re.items s).isSome := by
  unfold Regexp.MatchString
  cases s with
  | nil => simp [searchAt, matchAt, h]
  | cons c t =>
    rw [searchAt]
    have e : matchAt re (c :: t) (0 == 0) = matchItems re.eol re.items (c :: t) := by
      simp [matchAt, h]
    rw [e]
    cases matchItems re.eol re.items (c :: t) with
    | some ps => rfl
    | none =>
      simp only [searchAt_of_bol re h t 0]
      rfl

/-- `MatchGlob` never returns an error, and its result is whether the items
of the glob accept the whole path. -/
theorem MatchGlob_eq (path pattern : Str) :
    MatchGlob path pattern = some (matchItems true (pattern.map globItem) path).isSome := by
  unfold MatchGlob regexpMatchString
  simp only [compile_globToRegex, Option.map_some']
  rw [matchString_of_bol _ rfl]

theorem MatchGlob_true_iff (path pattern : Str) :
    MatchGlob path pattern = some true ↔ Accepts true (pattern.map globItem) path := by
  rw [MatchGlob_eq, ← matchItems_isSome]
  simp

/-! ## The glob matcher: `**`, literal patterns, `*` -/

theorem accepts_congr_cons (eol : Bool) (X Y : List Item)
    (h : ∀ s, Accepts eol X s ↔ Accepts eol Y s) (it : Item) (s : Str) :
    Accepts eol (it :: X) s ↔ Accepts eol (it :: Y) s := by
  cases it with
  | gopen => simp only [Accepts, h]
  | gclose => simp only [Accepts, h]
  | rep a q => cases q <;> simp only [Accepts, h]

theorem accepts_congr_append (eol : Bool) (X Y : List Item)
    (h : ∀ s, Accepts eol X s ↔ Accepts eol Y s) : ∀ (A : List Item) (s : Str),
    Accepts eol (A ++ X) s ↔ Accepts eol (A ++ Y) s
  | [], s => h s
  | it :: A, s => accepts_congr_cons eol _ _ (accepts_congr_append eol X Y h A) it s

/-- Two `.*` in a row accept what one does. -/
theorem accepts_star_star (eol : Bool) (a : Atom) (X : List Item) (s : Str) :
    Accepts eol (Item.rep a Rep.star :: Item.rep a Rep.star :: X) s ↔
      Accepts eol (Item.rep a Rep.star :: X) s := by
  simp only [Accepts]
  constructor
  · rintro ⟨u, v, rfl, hu, u1, v1, rfl, hu1, hx⟩
    refine ⟨u ++ u1, v1, by simp, ?_, hx⟩
    intro c hc
    rcases List.mem_append.1 hc with h | h
    · exact hu c h
    · exact hu1 c h
  · rintro ⟨u, v, rfl, hu, hx⟩
    exact ⟨u, v, rfl, hu, [], v, rfl, by simp, hx⟩

theorem accepts_replaceAllLoop_stars : ∀ (fuel : Nat) (p s : Str),
    Accepts true ((replaceAllLoop "**".toList "*".toList fuel p).map globItem) s ↔
      Accepts true (p.map globItem) s
  | 0, _, _ => Iff.rfl
  | fuel + 1, p, s => by
    rw [replaceAllLoop]
    cases hi : index p "**".toList with
    | none => exact Iff.rfl
    | some j =>
      simp only
      have hp := index_some_split p "**".toList j hi
      have e1 : (p.take j ++ "*".toList ++
          replaceAllLoop "**".toList "*".toList fuel (p.drop (j + "**".toList.length))).map
            globItem
          = (p.take j).map globItem ++ (Item.rep Atom.dot Rep.star ::
              (replaceAllLoop "**".toList "*".toList fuel
                (p.drop (j + "**".toList.length))).map globItem) := by
        simp only [List.map_append]
        simp [globItem]
      have e2 : p.map globItem
          = (p.take j).map globItem ++ (Item.rep Atom.dot Rep.star ::
              Item.rep Atom.dot Rep.star ::
              (p.drop (j + "**".toList.length)).map globItem) := by
        conv_lhs => rw [hp]
        simp only [List.map_append]
        simp [globItem]
      rw [e1, e2]
      apply accepts_congr_append
      intro t
      rw [accepts_star_star]
      apply accepts_congr_cons
      intro t1
      exact accepts_replaceAllLoop_stars fuel _ t1

/-- C18: for every path and pattern, `MatchGlob` gives the same result on the
pattern and on the pattern with every `**` replaced by `*`
(`strings.ReplaceAll(p, "**", "*")`). -/
theorem MatchGlob_double_star (path p : Str) :
    MatchGlob path p = MatchGlob path (replaceAll p "**".toList "*".toList) := by
  rw [MatchGlob_eq, MatchGlob_eq]
  congr 1
  rw [Bool.eq_iff_iff, matchItems_isSome, matchItems_isSome]
  have e : replaceAll p "**".toList "*".toList
      = replaceAllLoop "**".toList "*".toList p.length p := by
    unfold replaceAll
    rw [if_neg (by decide), if_neg (by decide)]
  rw [e]
  exact (accepts_replaceAllLoop_stars p.length p path).symm

theorem accepts_literal : ∀ (p s : Str), '*' ∉ p → '?' ∉ p →
    (Accepts true (p.map globItem) s ↔ s = p)
  | [], s, _, _ => by simp [Accepts]
  | c :: rest, s, hs, hq => by
    have hs1 : c ≠ '*' := fun e => hs (e ▸ List.mem_cons_self _ _)
    have hq1 : c ≠ '?' := fun e => hq (e ▸ List.mem_cons_self _ _)
    have ih := fun t => accepts_literal rest t (fun m => hs (List.mem_cons_of_mem _ m))
      (fun m => hq (List.mem_cons_of_mem _ m))
    have e : globItem c = Item.rep (Atom.lit c) Rep.one := by
      simp only [globItem, hs1, hq1, if_false]
    rw [List.map_cons, e]
    simp only [Accepts, Atom.accepts, beq_iff_eq, ih]
    constructor
    · rintro ⟨d, t, rfl, rfl, rfl⟩
      rfl
    · rintro rfl
      exact ⟨c, rest, rfl, rfl, rfl⟩

/-- On text: for a pattern without `*` and `?`, whatever other characters it
has, `MatchGlob(path, pattern)` is true exactly when the path equals the
pattern. -/
theorem MatchGlob_literal (path pattern : Str) (hs : '*' ∉ pattern) (hq : '?' ∉ pattern) :
    MatchGlob path pattern = some (decide (path = pattern)) := by
  rw [MatchGlob_eq]
  congr 1
  rw [Bool.eq_iff_iff, matchItems_isSome, accepts_literal pattern path hs hq]
  simp

/-- The same at a pattern made of regular-expression metacharacters. -/
theorem MatchGlob_literal_witness :
    MatchGlob "a.b+(c)[d]$^|\\e".toList "a.b+(c)[d]$^|\\e".toList = some true ∧
    MatchGlob "axb+(c)[d]$^|\\e".toList "a.b+(c)[d]$^|\\e".toList = some false ∧
    MatchGlob "xa.b+(c)[d]$^|\\e".toList "a.b+(c)[d]$^|\\e".toList = some false :=
  ⟨MatchGlob_literal "a.b+(c)[d]$^|\\e".toList "a.b+(c)[d]$^|\\e".toList
      (by decide) (by decide),
   MatchGlob_literal "axb+(c)[d]$^|\\e".toList "a.b+(c)[d]$^|\\e".toList
      (by decide) (by decide),
   MatchGlob_literal "xa.b+(c)[d]$^|\\e".toList "a.b+(c)[d]$^|\\e".toList
      (by decide) (by decide)⟩

/-- C20, refuted as stated: the prefix `a`, newline, `b` gives a path that
`*.properties` does not match, the `.` of the pattern `.*` not matching a
newline. -/
theorem MatchGlob_star_newline_counterexample :
    MatchGlob ("a\nb".toList ++ ".properties".toList) "*.properties".toList = some false := by
  decide

/-- C20, amended: for every prefix without newline, the empty one and those
with `/` included, `MatchGlob(prefix + ".properties", "*.properties")` is
true. -/
theorem MatchGlob_star_without_newline (pre : Str) (h : '\n' ∉ pre) :
    MatchGlob (pre ++ ".properties".toList) "*.properties".toList = some true := by
  rw [MatchGlob_true_iff]
  show Accepts true (Item.rep Atom.dot Rep.star :: (".properties".toList.map globItem)) _
  refine ⟨pre, ".properties".toList, rfl, ?_, ?_⟩
  · intro c hc
    simp only [Atom.accepts, bne_iff_ne, ne_eq]
    rintro rfl
    exact h hc
  · exact (matchItems_isSome true _ _).1 (by decide)

/-- C20 amended, at the empty prefix and at a prefix with path separators. -/
theorem MatchGlob_star_without_newline_witness :
    MatchGlob ("".toList ++ ".properties".toList) "*.properties".toList = some true ∧
    MatchGlob ("a/b/x".toList ++ ".properties".toList) "*.properties".toList = some true :=
  ⟨MatchGlob_star_without_newline "".toList (by decide),
   MatchGlob_star_without_newline "a/b/x".toList (by decide)⟩

/-! ## The file classifier -/

theorem extLoop_eq : ∀ (r acc : Str),
    extLoop r acc =
      if '.' ∈ r.takeWhile (fun c => c != '/') then
        '.' :: (((r.takeWhile (fun c => c != '/')).takeWhile (fun c => c != '.')).reverse ++ acc)
      else []
  | [], _ => rfl
  | c :: r, acc => by
    rw [extLoop]
    by_cases h1 : c = '/'
    · subst h1
      rfl
    · rw [if_neg h1]
      have hb : (c != '/') = true := by simpa using h1
      by_cases h2 : c = '.'
      · subst h2
        simp [List.takeWhile]
      · rw [if_neg h2, extLoop_eq r (c :: acc)]
        have hd : (c != '.') = true := by simpa using h2
        have hne : ¬ '.' = c := fun e => h2 e.symm
        simp only [List.takeWhile, hb, hd, List.mem_cons, hne, false_or, List.reverse_cons,
          List.append_assoc, List.singleton_append]

theorem filepathExt_eq (path : Str) : filepathExt path = extensionOf path := by
  unfold filepathExt extensionOf finalElement
  rw [extLoop_eq]
  simp only [List.mem_reverse, List.reverse_reverse, List.append_nil]

theorem DetermineFileType_eq (path : Str) :
    DetermineFileType path =
      if toLower (extensionOf path) = ".yml".toList ∨
          toLower (extensionOf path) = ".yaml".toList then FileType.YAML
      else if toLower (extensionOf path) = ".java".toList then FileType.Java
      else FileType.Properties := by
  unfold DetermineFileType
  rw [filepathExt_eq]
  generalize toLower (extensionOf path) = e
  simp only
  by_cases h1 : e = ".properties".toList
  · rw [if_pos h1, h1]
    decide
  · rw [if_neg h1]
    by_cases hy : e = ".yml".toList ∨ e = ".yaml".toList
    · have hb : (decide (e = ".yml".toList) || decide (e = ".yaml".toList)) = true := by
        simpa using hy
      rw [if_pos hb, if_pos hy]
    · have hb : ¬ (decide (e = ".yml".toList) || decide (e = ".yaml".toList)) = true := by
        simpa using hy
      rw [if_neg hb, if_neg hy]
      by_cases hj : e = ".java".toList
      · rw [if_pos hj, if_pos hj]
      · rw [if_neg hj, if_neg hj]
        split <;> rfl

/-- C21: `DetermineFileType` computes the extension of the final path
element (the text from its last dot on) and returns YAML exactly when its
lower case is `.yml` or `.yaml`, Java exactly when it is `.java`, and
Properties in every other case, with or without `application` in the file
name. -/
theorem DetermineFileType_spec :
    (∀ path : Str, filepathExt path = extensionOf path) ∧
    (∀ path : Str,
      (DetermineFileType path = FileType.YAML ↔
        (toLower (extensionOf path) = ".yml".toList ∨
          toLower (extensionOf path) = ".yaml".toList)) ∧
      (DetermineFileType path = FileType.Java ↔
        toLower (extensionOf path) = ".java".toList) ∧
      (DetermineFileType path = FileType.Properties ↔
        ¬ (toLower (extensionOf path) = ".yml".toList ∨
           toLower (extensionOf path) = ".yaml".toList ∨
           toLower (extensionOf path) = ".java".toList))) ∧
    DetermineFileType "config/App.YML".toList = FileType.YAML ∧
    DetermineFileType "x.YaMl".toList = FileType.YAML ∧
    DetermineFileType "src/A.JAVA".toList = FileType.Java ∧
    DetermineFileType "application.properties".toList = FileType.Properties ∧
    DetermineFileType "conf/application".toList = FileType.Properties ∧
    DetermineFileType "notes.txt".toList = FileType.Properties ∧
    DetermineFileType "dir.yml/README".toList = FileType.Properties := by
  refine ⟨filepathExt_eq, ?_, by decide, by decide, by decide, by decide, by decide,
    by decide, by decide⟩
  intro path
  rw [DetermineFileType_eq]
  generalize toLower (extensionOf path) = e
  by_cases hy : e = ".yml".toList ∨ e = ".yaml".toList
  · rw [if_pos hy]
    have hj : e ≠ ".java".toList := by
      rcases hy with h | h <;> rw [h] <;> decide
    refine ⟨⟨fun _ => hy, fun _ => rfl⟩, ⟨fun h => (by cases h), fun h => absurd h hj⟩,
      ⟨fun h => (by cases h), fun h => ?_⟩⟩
    exact absurd (hy.elim Or.inl (fun h1 => Or.inr (Or.inl h1))) h
  · rw [if_neg hy]
    by_cases hj : e = ".java".toList
    · rw [if_pos hj]
      refine ⟨⟨fun h => (by cases h), fun h => absurd h hy⟩, ⟨fun _ => hj, fun _ => rfl⟩,
        ⟨fun h => (by cases h), fun h => ?_⟩⟩
      exact absurd (Or.inr (Or.inr hj)) h
    · rw [if_neg hj]
      refine ⟨⟨fun h => (by cases h), fun h => absurd h hy⟩,
        ⟨fun h => (by cases h), fun h => absurd h hj⟩, ⟨fun _ => ?_, fun _ => rfl⟩⟩
      rintro (h | h | h)
      · exact hy (Or.inl h)
      · exact hy (Or.inr h)
      · exact hj h

/-! ## `Apply` changes the content only -/

theorem applyToProperties_frame (r : ChangeSpringPropertyKeyRecipe) (f : SpringConfigFile) :
    (applyToProperties r f).Path = f.Path ∧ (applyToProperties r f).Type_ = f.Type_ := by
  unfold applyToProperties
  simp only [SpringConfigFile.SetContent]
  split <;> exact ⟨rfl, rfl⟩

theorem applyToJava_frame (r : ChangeSpringPropertyKeyRecipe) (f : SpringConfigFile) :
    ∃ g, applyToJava r f = some g ∧ g.Path = f.Path ∧ g.Type_ = f.Type_ := by
  have hc : compile valuePatternText ≠ none := by decide
  unfold applyToJava
  cases h : compile valuePatternText with
  | none => exact absurd h hc
  | some re =>
    simp only [SpringConfigFile.SetContent]
    split
    · exact ⟨_, rfl, rfl, rfl⟩
    · exact ⟨_, rfl, rfl, rfl⟩

theorem addToProperties_frame (r : AddSpringPropertyRecipe) (f : SpringConfigFile) :
    (addToProperties r f).Path = f.Path ∧ (addToProperties r f).Type_ = f.Type_ := by
  unfold addToProperties
  simp only [SpringConfigFile.SetContent]
  split <;> exact ⟨rfl, rfl⟩

theorem addToYAML_frame (r : AddSpringPropertyRecipe) (f : SpringConfigFile) :
    (addToYAML r f).Path = f.Path ∧ (addToYAML r f).Type_ = f.Type_ := by
  unfold addToYAML
  simp only [SpringConfigFile.SetContent]
  split <;> exact ⟨rfl, rfl⟩

/-- C22: for both recipes and every source file, `Apply` returns (without
panic) a file whose path and file type are those of the input file; only the
content can differ. -/
theorem Apply_keeps_path_and_type :
    (∀ (r : ChangeSpringPropertyKeyRecipe) (f : SpringConfigFile),
      ∃ g, r.Apply f = some g ∧ g.Path = f.Path ∧ g.Type_ = f.Type_) ∧
    (∀ (r : AddSpringPropertyRecipe) (f : SpringConfigFile),
      (r.Apply f).Path = f.Path ∧ (r.Apply f).Type_ = f.Type_) := by
  constructor
  · intro r f
    unfold ChangeSpringPropertyKeyRecipe.Apply
    split
    · exact ⟨f, rfl, rfl, rfl⟩
    · split
      · exact ⟨_, rfl, applyToProperties_frame r f⟩
      · rw [applyToYAML_content]
        exact ⟨_, rfl, rfl, rfl⟩
      · exact applyToJava_frame r f
  · intro r f
    unfold AddSpringPropertyRecipe.Apply
    split
    · exact ⟨rfl, rfl⟩
    · split
      · exact addToProperties_frame r f
      · exact addToYAML_frame r f
      · exact ⟨rfl, rfl⟩

/-! ## The properties rewrite, line by line -/

theorem mem_replaceFirst (c : Char) (s old new : Str) (h : c ∈ replaceFirst s old new) :
    c ∈ s ∨ c ∈ new := by
  unfold replaceFirst at h
  split at h
  · exact Or.inl h
  · split at h
    · exact Or.inl h
    · rename_i j _
      rcases List.mem_append.1 h with h1 | h1
      · rcases List.mem_append.1 h1 with h2 | h2
        · exact Or.inl (List.mem_of_mem_take h2)
        · exact Or.inr h2
      · exact Or.inl (List.mem_of_mem_drop h1)

theorem mem_trimSpace (c : Char) (s : Str) (h : c ∈ trimSpace s) : c ∈ s := by
  by_contra hn
  exact not_mem_trimSpace hn h

theorem mem_transformPropertyKey (r : ChangeSpringPropertyKeyRecipe) (c : Char) (k : Str)
    (h : c ∈ transformPropertyKey r k) : c ∈ k ∨ c ∈ r.NewPropertyKey := by
  unfold transformPropertyKey at h
  split at h
  · exact mem_replaceFirst c _ _ _ h
  · exact Or.inl h

theorem mem_propertiesLine (r : ChangeSpringPropertyKeyRecipe) (c : Char) (l : Str)
    (h : c ∈ (propertiesLine r l).1) : c ∈ l ∨ c ∈ r.NewPropertyKey ∨ c = '=' := by
  by_cases he : '=' ∈ l
  · obtain ⟨rest, h1, h2⟩ := exists_first_occurrence '=' l he
    rw [h1, propertiesLine_of_eq r _ rest h2, ← h1] at h
    split at h
    · exact Or.inl h
    · split at h
      · split at h
        · rcases mem_replaceFirst c _ _ _ h with h3 | h3
          · exact Or.inl h3
          · rcases List.mem_append.1 h3 with h4 | h4
            · rcases mem_transformPropertyKey r c _ h4 with h5 | h5
              · left
                have := mem_trimSpace c _ h5
                exact (List.takeWhile_prefix _).subset this
              · exact Or.inr (Or.inl h5)
            · right; right
              simpa using h4
        · exact Or.inl h
      · exact Or.inl h
  · rw [propertiesLine_of_no_eq r l he] at h
    exact Or.inl h

theorem propertiesLine_of_skip (r : ChangeSpringPropertyKeyRecipe) (l : Str)
    (h : trimSpace l = [] ∨ "#".toList <+: trimSpace l) : propertiesLine r l = (l, false) := by
  unfold propertiesLine
  simp only
  rw [if_pos]
  simp only [Bool.or_eq_true, decide_eq_true_eq]
  rcases h with h | h
  · exact Or.inr h
  · exact Or.inl ((hasPrefix_iff _ _).2 h)

theorem length_le_join (c : Char) : ∀ (out : List Str),
    out.length ≤ (join out [c]).length + 1
  | [] => by simp
  | [a] => by simp [join]
  | a :: b :: rest => by
    have ih := length_le_join c (b :: rest)
    have e : join (a :: b :: rest) [c] = a ++ [c] ++ join (b :: rest) [c] := rfl
    rw [e]
    simp only [List.length_append, List.length_cons, List.length_nil] at ih ⊢
    omega

theorem splitLoop_join (c : Char) : ∀ (out : List Str) (n : Nat), out ≠ [] →
    (∀ l ∈ out, c ∉ l) → out.length ≤ n + 1 → splitLoop [c] n (join out [c]) = out
  | [], _, h, _, _ => absurd rfl h
  | [a], n, _, h, _ => by
    rw [join]
    exact splitLoop_of_index_none _ _
      (index_single_of_not_mem c a (h a (List.mem_singleton.2 rfl))) n
  | a :: b :: rest, n, _, h, hn => by
    obtain ⟨k, rfl⟩ : ∃ k, n = k + 1 := ⟨n - 1, by
      simp only [List.length_cons] at hn
      omega⟩
    have e : join (a :: b :: rest) [c] = a ++ c :: join (b :: rest) [c] := by
      simp [join]
    rw [e, splitLoop_cut c _ _ (h a (List.mem_cons_self _ _)),
      splitLoop_join c (b :: rest) k (by simp)
        (fun l hl => h l (List.mem_cons_of_mem _ hl)) (by
          simp only [List.length_cons] at hn ⊢
          omega)]

/-- Splitting the join of separator-free lines gives the lines back. -/
theorem split_join (c : Char) (out : List Str) (hne : out ≠ []) (h : ∀ l ∈ out, c ∉ l) :
    split (join out [c]) [c] = out := by
  unfold split
  rw [if_neg (by simp)]
  exact splitLoop_join c out _ hne h (length_le_join c out)

theorem split_ne_nil (s sep : Str) (h : sep ≠ []) : split s sep ≠ [] := by
  unfold split
  rw [if_neg h]
  exact splitLoop_ne_nil sep _ s

/-- C23, refuted as stated: with old key `a` and a new key that contains a
newline, the content `a=1\nb` of two lines is rewritten to a content of three
lines, and the line `b`, which has no `=`, is no longer at its position. -/
theorem applyToProperties_newline_key_counterexample :
    (applyToProperties (keyRecipe "a" "x\ny" [])
        ⟨"application.properties".toList, "a=1\nb".toList, FileType.Properties⟩).Content
      = "x\ny=1\nb".toList ∧
    (split "a=1\nb".toList "\n".toList).length = 2 ∧
    (split (applyToProperties (keyRecipe "a" "x\ny" [])
        ⟨"application.properties".toList, "a=1\nb".toList,
          FileType.Properties⟩).Content "\n".toList).length = 3 ∧
    (split "a=1\nb".toList "\n".toList)[1]? = some "b".toList ∧
    '=' ∉ trimSpace "b".toList ∧
    (split (applyToProperties (keyRecipe "a" "x\ny" [])
        ⟨"application.properties".toList, "a=1\nb".toList,
          FileType.Properties⟩).Content "\n".toList)[1]? = some "y=1".toList := by
  decide

/-- C23, amended: the content `applyToProperties` returns is the lines of the
input, each mapped through the one function `propertiesLine`, re-joined with
newlines; and when `NewPropertyKey` contains no newline, the lines of the
result are those mapped lines, as many as the input has, and every line that
after trimming is empty, starts with `#` or contains no `=` is found
unchanged at its position. -/
theorem applyToProperties_line_independent (r : ChangeSpringPropertyKeyRecipe)
    (f : SpringConfigFile) (hnew : '\n' ∉ r.NewPropertyKey) :
    (applyToProperties r f).Content
      = join ((split f.Content "\n".toList).map (fun l => (propertiesLine r l).1))
          "\n".toList ∧
    split (applyToProperties r f).Content "\n".toList
      = (split f.Content "\n".toList).map (fun l => (propertiesLine r l).1) ∧
    (split (applyToProperties r f).Content "\n".toList).length
      = (split f.Content "\n".toList).length ∧
    ∀ (i : Nat) (line : Str), (split f.Content "\n".toList)[i]? = some line →
      (trimSpace line = [] ∨ "#".toList <+: trimSpace line ∨ '=' ∉ trimSpace line) →
      (split (applyToProperties r f).Content "\n".toList)[i]? = some line := by
  have hc : (applyToProperties r f).Content
      = join ((split f.Content "\n".toList).map (fun l => (propertiesLine r l).1))
          "\n".toList := by
    rw [applyToProperties_content, propertiesLoop_fst]
  have hs : split (applyToProperties r f).Content "\n".toList
      = (split f.Content "\n".toList).map (fun l => (propertiesLine r l).1) := by
    rw [hc]
    apply split_join '\n'
    · intro h
      exact split_ne_nil f.Content "\n".toList (by decide) (List.map_eq_nil_iff.1 h)
    · intro l hl
      obtain ⟨l0, hl0, rfl⟩ := List.mem_map.1 hl
      intro hm
      rcases mem_propertiesLine r '\n' l0 hm with h1 | h1 | h1
      · exact not_mem_of_mem_split '\n' f.Content l0 hl0 h1
      · exact hnew h1
      · exact absurd h1 (by decide)
  refine ⟨hc, hs, ?_, ?_⟩
  · rw [hs, List.length_map]
  · intro i line hi hcond
    rw [hs, List.getElem?_map, hi]
    simp only [Option.map_some', Option.some.injEq]
    rcases hcond with h | h | h
    · rw [propertiesLine_of_skip r line (Or.inl h)]
    · rw [propertiesLine_of_skip r line (Or.inr h)]
    · have he : '=' ∉ line := by
        intro hm
        obtain ⟨rest, h1, h2⟩ := exists_first_occurrence '=' line hm
        apply h
        rw [h1, trimSpace_append_cons _ _ _ (by decide)]
        simp
      rw [propertiesLine_of_no_eq r line he]

/-- C23 amended, at a content with a comment, a blank line, a key line and a
line without `=`. -/
theorem applyToProperties_line_independent_witness :
    (split (applyToProperties (keyRecipe "a" "b" [])
        ⟨"application.properties".toList, "# a=0\n\na.x=1\nplain".toList,
          FileType.Properties⟩).Content "\n".toList).length
      = (split "# a=0\n\na.x=1\nplain".toList "\n".toList).length :=
  (applyToProperties_line_independent (keyRecipe "a" "b" [])
    ⟨"application.properties".toList, "# a=0\n\na.x=1\nplain".toList,
      FileType.Properties⟩ (by decide)).2.2.1

/-! ## The comment check of the YAML rewrite -/

theorem mem_of_contains_single (c : Char) (s : Str) (h : contains s [c] = true) : c ∈ s := by
  by_contra hn
  rw [contains_single_of_not_mem c s hn] at h
  exact absurd h (by simp)

/-- C24: `applyToYAML` never panics; the slice `strings.TrimSpace(line)[0:1]`
is in range on every line that contains `:` (its trimmed form is not empty),
and a line that does not contain `:`, an empty or white-space line included,
is passed over without the slice; a line whose trimmed form begins with `#`
is never modified, in `yamlLine` and at its position in the result. -/
theorem applyToYAML_comment_guard :
    (∀ (r : ChangeSpringPropertyKeyRecipe) (f : SpringConfigFile),
      ∃ g, applyToYAML r f = some g) ∧
    (∀ line : Str, contains line ":".toList = true →
      trimSpace line ≠ [] ∧ sliceFirst (trimSpace line) ≠ none) ∧
    (∀ (r : ChangeSpringPropertyKeyRecipe) (line : Str),
      contains line ":".toList = false → yamlLine r line = some (line, false)) ∧
    (∀ r : ChangeSpringPropertyKeyRecipe,
      sliceFirst (trimSpace []) = none ∧ yamlLine r [] = some ([], false) ∧
      sliceFirst (trimSpace "  \t ".toList) = none ∧
      yamlLine r "  \t ".toList = some ("  \t ".toList, false)) ∧
    (∀ (r : ChangeSpringPropertyKeyRecipe) (line : Str),
      (trimSpace line).head? = some '#' → yamlLine r line = some (line, false)) ∧
    (∀ (r : ChangeSpringPropertyKeyRecipe) (f : SpringConfigFile) (i : Nat) (line : Str),
      (split f.Content "\n".toList)[i]? = some line →
      (trimSpace line).head? = some '#' →
      ∃ out : List Str, applyToYAML r f = some (f.SetContent (join out "\n".toList)) ∧
        out.length = (split f.Content "\n".toList).length ∧ out[i]? = some line) := by
  have hcomment : ∀ (r : ChangeSpringPropertyKeyRecipe) (line : Str),
      (trimSpace line).head? = some '#' → yamlLine r line = some (line, false) := by
    intro r line h
    by_cases hm : ':' ∈ line
    · obtain ⟨rest, h1, h2⟩ := exists_first_occurrence ':' line hm
      rw [h1, yamlLine_of_colon r _ rest h2, ← h1, if_pos h]
    · exact yamlLine_of_no_colon r line hm
  have hskip : ∀ (r : ChangeSpringPropertyKeyRecipe) (line : Str),
      contains line ":".toList = false → yamlLine r line = some (line, false) := by
    intro r line h
    apply yamlLine_of_no_colon
    intro hm
    rw [show ":".toList = [':'] from rfl, contains_single_of_mem ':' line hm] at h
    exact absurd h (by simp)
  refine ⟨fun r f => ⟨_, applyToYAML_content r f⟩, ?_, hskip, ?_, hcomment, ?_⟩
  · intro line h
    have hm : ':' ∈ line := mem_of_contains_single ':' line h
    obtain ⟨rest, h1, h2⟩ := exists_first_occurrence ':' line hm
    have hne : trimSpace line ≠ [] := by
      rw [h1, trimSpace_append_cons _ _ _ (by decide)]
      simp
    refine ⟨hne, ?_⟩
    cases ht : trimSpace line with
    | nil => exact absurd ht hne
    | cons c t => simp [sliceFirst]
  · intro r
    exact ⟨by decide, hskip r [] (by decide), by decide, hskip r _ (by decide)⟩
  · intro r f i line hi hhash
    refine ⟨_, applyToYAML_content r f, by rw [List.length_map], ?_⟩
    rw [List.getElem?_map, hi, Option.map_some', hcomment r line hhash]
    rfl

/-- C24, at a document with an empty line, a white-space line and a comment
that contains a colon and the old key. -/
theorem applyToYAML_comment_guard_witness :
    ∃ out : List Str,
      applyToYAML (keyRecipe "port" "server.port" [])
          ⟨"application.yml".toList, "\n   \n  # port: 1\nport: 2".toList, FileType.YAML⟩
        = some ((⟨"application.yml".toList, "\n   \n  # port: 1\nport: 2".toList,
            FileType.YAML⟩ : SpringConfigFile).SetContent (join out "\n".toList)) ∧
      out.length = (split "\n   \n  # port: 1\nport: 2".toList "\n".toList).length ∧
      out[2]? = some "  # port: 1".toList :=
  applyToYAML_comment_guard.2.2.2.2.2 (keyRecipe "port" "server.port" [])
    ⟨"application.yml".toList, "\n   \n  # port: 1\nport: 2".toList, FileType.YAML⟩
    2 "  # port: 1".toList (by decide) (by decide)

/-! ## Patterns that start with `**/` -/

theorem anyGlob_false (path : Str) : ∀ (patterns : List Str),
    (∀ p ∈ patterns, MatchGlob path p = some false) → anyGlob path patterns = false
  | [], _ => rfl
  | p :: rest, h => by
    rw [anyGlob, h p (List.mem_cons_self _ _)]
    simp only [Option.getD_some, Bool.false_eq_true, if_false]
    exact anyGlob_false path rest (fun q hq => h q (List.mem_cons_of_mem _ hq))

theorem MatchGlob_needs_slash (path rest : Str) (h : '/' ∉ path) :
    MatchGlob path ("**/".toList ++ rest) = some false := by
  rw [MatchGlob_eq]
  congr 1
  cases hm : (matchItems true (("**/".toList ++ rest).map globItem) path).isSome with
  | false => rfl
  | true =>
    exfalso
    have ha := (matchItems_isSome true _ _).1 hm
    have e : ("**/".toList ++ rest).map globItem
        = Item.rep Atom.dot Rep.star :: Item.rep Atom.dot Rep.star ::
            Item.rep (Atom.lit '/') Rep.one :: rest.map globItem := rfl
    rw [e] at ha
    obtain ⟨u, v, rfl, _, u1, v1, rfl, _, c, t, rfl, hc, _⟩ := ha
    have hc1 : c = '/' := by simpa [Atom.accepts] using hc
    apply h
    rw [hc1]
    simp

/-- C25: a path without `/` is matched by no pattern that starts with `**/`,
so by none of the default patterns `**/application.properties`,
`**/application.yml`, `**/application.yaml`, `**/*.java`; and when every path
the walk passes to the callback is without `/` (files directly under a root
given as `.`), `FindSpringConfigFiles` with the default patterns selects
nothing. -/
theorem MatchGlob_default_patterns_need_slash :
    (∀ path rest : Str, '/' ∉ path → MatchGlob path ("**/".toList ++ rest) = some false) ∧
    (∀ path : Str, '/' ∉ path → ∀ pattern ∈ defaultPatterns,
      MatchGlob path pattern = some false) ∧
    (∀ walked : List WalkEntry, (∀ e ∈ walked, '/' ∉ e.path) →
      FindSpringConfigFiles walked defaultPatterns = []) := by
  have h2 : ∀ path : Str, '/' ∉ path → ∀ pattern ∈ defaultPatterns,
      MatchGlob path pattern = some false := by
    intro path hp pattern hm
    simp only [defaultPatterns, List.mem_cons, List.mem_singleton, List.not_mem_nil,
      or_false] at hm
    rcases hm with rfl | rfl | rfl | rfl
    · exact MatchGlob_needs_slash path "application.properties".toList hp
    · exact MatchGlob_needs_slash path "application.yml".toList hp
    · exact MatchGlob_needs_slash path "application.yaml".toList hp
    · exact MatchGlob_needs_slash path "*.java".toList hp
  refine ⟨MatchGlob_needs_slash, h2, ?_⟩
  intro walked
  induction walked with
  | nil => intro _; rfl
  | cons e rest ih =>
    intro h
    have hrest := ih (fun x hx => h x (List.mem_cons_of_mem _ hx))
    have hany : anyGlob e.path defaultPatterns = false :=
      anyGlob_false e.path defaultPatterns (h2 e.path (h e (List.mem_cons_self _ _)))
    rw [FindSpringConfigFiles, hany, hrest]
    simp

/-- C25, at the bare file names a walk of `.` yields. -/
theorem MatchGlob_default_patterns_need_slash_witness :
    MatchGlob "application.properties".toList "**/application.properties".toList
      = some false ∧
    FindSpringConfigFiles
        [⟨".".toList, true⟩, ⟨"App.java".toList, false⟩,
          ⟨"application.properties".toList, false⟩, ⟨"application.yml".toList, false⟩]
        defaultPatterns = [] :=
  ⟨MatchGlob_default_patterns_need_slash.2.1 "application.properties".toList (by decide)
      "**/application.properties".toList (by decide),
   MatchGlob_default_patterns_need_slash.2.2
      [⟨".".toList, true⟩, ⟨"App.java".toList, false⟩,
        ⟨"application.properties".toList, false⟩, ⟨"application.yml".toList, false⟩]
      (by decide)⟩

/-! ## Literal patterns, on Go strings as bytes -/

theorem char_range (c : Char) :
    c.toNat < 0xD800 ∨ (0xDFFF < c.toNat ∧ c.toNat < 0x110000) := by
  have := c.valid
  simpa [UInt32.isValidChar, Nat.isValidChar, Char.toNat] using this

theorem decodeRune_encodeRune (c : Char) (rest : Bytes) :
    decodeRune (encodeRune c ++ rest) = some (c, (encodeRune c).length) := by
  have hr := char_range c
  have hc := Char.ofNat_toNat c
  unfold encodeRune
  simp only
  generalize c.toNat = n at hr hc
  split
  · rename_i h
    simp only [List.singleton_append, List.length_singleton, decodeRune, h, if_true, hc]
  · split
    · rename_i h1 h2
      have e : rune2 (0xC0 + n / 64) (0x80 + n % 64) = n := by
        unfold rune2; omega
      have v : valid2 (0xC0 + n / 64) (0x80 + n % 64) = true := by
        simp only [valid2, isCont, Bool.and_eq_true, decide_eq_true_eq]
        omega
      show decodeRune ((0xC0 + n / 64) :: (0x80 + n % 64) :: rest) = _
      have hlt : ¬ 0xC0 + n / 64 < 0x80 := by omega
      simp only [decodeRune, hlt, if_false, v, if_true, e, hc]
      rfl
    · split
      · rename_i h1 h2 h3
        have e : rune3 (0xE0 + n / 4096) (0x80 + n / 64 % 64) (0x80 + n % 64) = n := by
          unfold rune3; omega
        have v2 : valid2 (0xE0 + n / 4096) (0x80 + n / 64 % 64) = false := by
          simp only [valid2, isCont, Bool.and_eq_false_iff, decide_eq_false_iff_not]
          omega
        have v : valid3 (0xE0 + n / 4096) (0x80 + n / 64 % 64) (0x80 + n % 64) = true := by
          simp only [valid3, e, isCont, Bool.and_eq_true, decide_eq_true_eq,
            Bool.not_eq_true', Bool.and_eq_false_iff, decide_eq_false_iff_not]
          omega
        show decodeRune ((0xE0 + n / 4096) :: (0x80 + n / 64 % 64) :: (0x80 + n % 64) ::
          rest) = _
        have hlt : ¬ 0xE0 + n / 4096 < 0x80 := by omega
        simp only [decodeRune, hlt, v2, v, if_true, e, hc, Bool.false_eq_true, if_false]
        rfl
      · rename_i h1 h2 h3
        have e : rune4 (0xF0 + n / 262144) (0x80 + n / 4096 % 64) (0x80 + n / 64 % 64)
            (0x80 + n % 64) = n := by
          unfold rune4; omega
        have v2 : valid2 (0xF0 + n / 262144) (0x80 + n / 4096 % 64) = false := by
          simp only [valid2, isCont, Bool.and_eq_false_iff, decide_eq_false_iff_not]
          omega
        have v3 : valid3 (0xF0 + n / 262144) (0x80 + n / 4096 % 64) (0x80 + n / 64 % 64)
            = false := by
          simp only [valid3, isCont, Bool.and_eq_false_iff, decide_eq_false_iff_not]
          omega
        have v : valid4 (0xF0 + n / 262144) (0x80 + n / 4096 % 64) (0x80 + n / 64 % 64)
            (0x80 + n % 64) = true := by
          simp only [valid4, e, isCont, Bool.and_eq_true, decide_eq_true_eq]
          omega
        show decodeRune ((0xF0 + n / 262144) :: (0x80 + n / 4096 % 64) ::
          (0x80 + n / 64 % 64) :: (0x80 + n % 64) :: rest) = _
        have hlt : ¬ 0xF0 + n / 262144 < 0x80 := by omega
        simp only [decodeRune, hlt, v2, v3, v, if_true, e, hc, Bool.false_eq_true, if_false]
        rfl

theorem encodeRune_ne_nil (c : Char) : encodeRune c ≠ [] := by
  unfold encodeRune
  simp only
  split
  · simp
  · split
    · simp
    · split <;> simp

theorem decodeLoop_skip : ∀ (pre rest : Bytes),
    decodeLoop pre.length (pre ++ rest) = decodeLoop 0 rest
  | [], _ => rfl
  | b :: pre, rest => by
    show decodeLoop (pre.length + 1) (b :: (pre ++ rest)) = _
    rw [decodeLoop]
    exact decodeLoop_skip pre rest

/-- Decoding the bytes of a text gives the text back, no byte invalid. -/
theorem decodeRunes_encodeUTF8 : ∀ (s : Str), decodeRunes (encodeUTF8 s) = s.map some
  | [] => rfl
  | c :: s => by
    have ih := decodeRunes_encodeUTF8 s
    unfold decodeRunes at ih ⊢
    unfold encodeUTF8 at ih ⊢
    rw [List.flatMap_cons]
    obtain ⟨b0, tl, hb⟩ := List.exists_cons_of_ne_nil (encodeRune_ne_nil c)
    have hd := decodeRune_encodeRune c (s.flatMap encodeRune)
    rw [hb] at hd ⊢
    show decodeLoop 0 (b0 :: (tl ++ s.flatMap encodeRune)) = _
    rw [decodeLoop]
    simp only [List.cons_append] at hd
    rw [hd]
    simp only [List.length_cons, Nat.add_sub_cancel, List.map_cons]
    rw [decodeLoop_skip, ih]

theorem validText_map_some : ∀ (s : Str), validText (s.map some) = some s
  | [] => rfl
  | c :: s => by
    rw [List.map_cons, validText, validText_map_some s]
    rfl

theorem lossyText_map_some (s : Str) : lossyText (s.map some) = s := by
  unfold lossyText
  rw [List.map_map]
  conv_rhs => rw [← List.map_id s]
  apply List.map_congr_left
  intro c _
  rfl

theorem encodeUTF8_inj (s t : Str) : encodeUTF8 s = encodeUTF8 t ↔ s = t := by
  constructor
  · intro h
    have := congrArg decodeRunes h
    rw [decodeRunes_encodeUTF8, decodeRunes_encodeUTF8] at this
    exact List.map_injective_iff.2 (Option.some_injective Char) this
  · intro h
    rw [h]

/-- C19, refuted as stated: the one-byte pattern `0xFF` contains neither `*`
(byte 42) nor `?` (byte 63), it is not valid UTF-8, and `MatchGlob` of that
string against itself returns the compile error, not `true`. -/
theorem MatchGlobBytes_invalid_pattern_counterexample :
    (42 ∉ ([0xFF] : Bytes) ∧ 63 ∉ ([0xFF] : Bytes)) ∧
    validText (decodeRunes [0xFF]) = none ∧
    MatchGlobBytes [0xFF] [0xFF] = none ∧
    MatchGlobBytes [0xFF] [0xFF] ≠ some true := by
  decide

/-- C19, amended: for every path and pattern that are valid UTF-8 (the bytes
of a text; decoding them gives the text back), the pattern without `*` and
`?`, whatever other characters it has, `MatchGlob(path, pattern)` returns no
error and is true exactly when the path equals the pattern. -/
theorem MatchGlobBytes_literal (path pattern : Str) (hs : '*' ∉ pattern)
    (hq : '?' ∉ pattern) :
    validText (decodeRunes (encodeUTF8 path)) = some path ∧
    validText (decodeRunes (encodeUTF8 pattern)) = some pattern ∧
    MatchGlobBytes (encodeUTF8 path) (encodeUTF8 pattern)
      = some (decide (encodeUTF8 path = encodeUTF8 pattern)) := by
  refine ⟨by rw [decodeRunes_encodeUTF8, validText_map_some],
    by rw [decodeRunes_encodeUTF8, validText_map_some], ?_⟩
  unfold MatchGlobBytes
  rw [decodeRunes_encodeUTF8, decodeRunes_encodeUTF8, validText_map_some,
    lossyText_map_some]
  simp only
  rw [MatchGlob_literal path pattern hs hq]
  congr 1
  rw [Bool.eq_iff_iff, decide_eq_true_eq, decide_eq_true_eq, encodeUTF8_inj]

/-- C19 amended, at a pattern made of regular-expression metacharacters and a
character outside ASCII. -/
theorem MatchGlobBytes_literal_witness :
    MatchGlobBytes (encodeUTF8 "a.b+(c)[d]$^|\\é".toList)
        (encodeUTF8 "a.b+(c)[d]$^|\\é".toList)
      = some (decide (encodeUTF8 "a.b+(c)[d]$^|\\é".toList
          = encodeUTF8 "a.b+(c)[d]$^|\\é".toList)) ∧
    MatchGlobBytes (encodeUTF8 "axb+(c)[d]$^|\\é".toList)
        (encodeUTF8 "a.b+(c)[d]$^|\\é".toList)
      = some (decide (encodeUTF8 "axb+(c)[d]$^|\\é".toList
          = encodeUTF8 "a.b+(c)[d]$^|\\é".toList)) :=
  ⟨(MatchGlobBytes_literal "a.b+(c)[d]$^|\\é".toList "a.b+(c)[d]$^|\\é".toList
      (by decide) (by decide)).2.2,
   (MatchGlobBytes_literal "axb+(c)[d]$^|\\é".toList "a.b+(c)[d]$^|\\é".toList
      (by decide) (by decide)).2.2⟩

end RewriteSpring
